import Mathlib

/-
Verification of the seqscore chunk-tag encoding engine
(seqscore/encoding.py and seqscore/validation.py).

Python strings are modelled as lists of characters (`Str`), Python
exceptions as the `RunError` type, and every fallible operation returns
`Except RunError _`.  The classes IO, IOB, BIO and BIOES of the source are
modelled in the namespaces Io, Iob, Bio and Bioes (the source spellings
collide with Lean's IO monad and would be rejected by the build).
-/

/-- Characters of a Python string. -/
abbrev Str := List Char

/-- The runtime failures raised by the original code: `EncodingError`,
`AssertionError` (from `assert`), `ValueError`, `IndexError` (out-of-range
list assignment) and `NotImplementedError`. -/
inductive RunError where
  | encodingError (msg : String)
  | assertionError
  | valueError
  | indexError
  | notImplementedError
deriving DecidableEq, Repr

deriving instance DecidableEq for Except

@[simp] theorem except_bind_ok {ε α β : Type} (a : α) (f : α → Except ε β) :
    (Except.ok a >>= f) = f a := rfl

@[simp] theorem except_bind_error {ε α β : Type} (e : ε) (f : α → Except ε β) :
    ((Except.error e : Except ε α) >>= f) = Except.error e := rfl

@[simp] theorem except_pure_def {ε α : Type} (a : α) :
    (pure a : Except ε α) = Except.ok a := rfl

@[simp] theorem except_map_ok {ε α β : Type} (f : α → β) (a : α) :
    (Except.ok a : Except ε α).map f = Except.ok (f a) := rfl

@[simp] theorem except_map_error {ε α β : Type} (f : α → β) (e : ε) :
    (Except.error e : Except ε α).map f = Except.error e := rfl

/-- The symbol table of a tagging scheme (class `EncodingDialect`).  The
source stores the field `end` (renamed `ends` here, `end` is reserved in
Lean); `label_delim` is the single character `'-'` in every dialect the
source constructs, so it is modelled as a `Char`. -/
structure Dialect where
  label_delim : Char
  begin : Str
  inside : Str
  outside : Str
  ends : Str
  single : Str
deriving DecidableEq, Repr

def BIOESDialect : Dialect :=
  { label_delim := '-', begin := ['B'], inside := ['I'], outside := ['O'],
    ends := ['E'], single := ['S'] }

def BILOUDialect : Dialect := { BIOESDialect with ends := ['L'], single := ['U'] }

def BMESDialect : Dialect := { BIOESDialect with inside := ['M'] }

def BMEOWDialect : Dialect := { BMESDialect with single := ['W'] }

/-- Python truthiness of an `Optional[str]` value: `None` and the empty
string are falsy. -/
def truthy : Option Str → Bool
  | some (_ :: _) => true
  | _ => false

/-- Python truthiness of an `Optional` list. -/
def truthyL {α : Type} : Option (List α) → Bool
  | some (_ :: _) => true
  | _ => false

/-- Python truthiness of an `Optional[str]` native string. -/
def truthyS : Option String → Bool
  | some s => !s.isEmpty
  | none => false

/-- `label.split(delim, maxsplit=1)` when the delimiter occurs: the prefix
before the first occurrence of `delim` and the remainder after it;
`none` when `delim` does not occur. -/
def splitOnFirst (delim : Char) : Str → Option (Str × Str)
  | [] => none
  | c :: cs =>
    if c = delim then some ([], cs)
    else
      match splitOnFirst delim cs with
      | none => none
      | some (pre, post) => some (c :: pre, post)

/-- `Encoding.split_label`. -/
def split_label (d : Dialect) (label : Str) : Except RunError (Str × Option Str) :=
  match splitOnFirst d.label_delim label with
  | none =>
    if label ≠ d.outside then
      .error (.encodingError "Label does not have a state and entity type but is not outside")
    else
      .ok (label, none)
  | some (state, entity_type) =>
    if state = d.outside then
      .error (.encodingError "Label has an entity type but is outside")
    else
      .ok (state, some entity_type)

/-- `Encoding.join_label`.  The `assert` statements of the source become
`assertionError` results; the first branch is taken exactly when
`entity_type` is truthy. -/
def join_label (d : Dialect) (state : Str) (entity_type : Option Str) : Except RunError Str :=
  match entity_type with
  | some (c :: cs) =>
    if state ≠ d.outside then .ok (state ++ d.label_delim :: c :: cs)
    else .error .assertionError
  | _ =>
    if state = d.outside then .ok state else .error .assertionError

/-- `Encoding.is_valid_transition`, parameterised by the two transition
tables that the concrete scheme's constructor builds. -/
def is_valid_transition (same diff : List (Str × Str)) (first_state : Str)
    (first_type : Option Str) (second_state : Str) (second_type : Option Str) : Bool :=
  if first_type = second_type then decide ((first_state, second_state) ∈ same)
  else decide ((first_state, second_state) ∈ diff)

/-- `Span`: half-open token range.  The source field `end` is renamed
`stop`; the constructor validation `end > start` is enforced at the single
construction site (`_MentionBuilder.end_mention`). -/
structure Span where
  start : Nat
  stop : Nat
deriving DecidableEq, Repr

/-- `Mention`: a typed span. -/
structure Mention where
  span : Span
  type : Str
deriving DecidableEq, Repr

/-- `_MentionBuilder`. -/
structure MentionBuilder where
  start_idx : Option Nat
  entity_type : Option Str
  mentions : List Mention
deriving DecidableEq, Repr

def MentionBuilder.init : MentionBuilder := ⟨none, none, []⟩

def MentionBuilder.in_mention (b : MentionBuilder) : Bool := b.start_idx.isSome

/-- `_MentionBuilder.start_mention`: asserts the entity type is truthy and
no mention is currently open. -/
def MentionBuilder.start_mention (b : MentionBuilder) (start_idx : Nat)
    (entity_type : Option Str) : Except RunError MentionBuilder :=
  match entity_type with
  | some (c :: cs) =>
    match b.start_idx, b.entity_type with
    | none, none => .ok ⟨some start_idx, some (c :: cs), b.mentions⟩
    | _, _ => .error .assertionError
  | _ => .error .assertionError

/-- `_MentionBuilder.end_mention`: asserts `end_idx > 0` and that a mention
is open; constructing the `Span` raises `ValueError` unless
`end_idx > start_idx` (the validator in `model.py`). -/
def MentionBuilder.end_mention (b : MentionBuilder) (end_idx : Nat) :
    Except RunError MentionBuilder :=
  if end_idx = 0 then .error .assertionError
  else
    match b.start_idx, b.entity_type with
    | some s, some t =>
      if s < end_idx then .ok ⟨none, none, b.mentions ++ [⟨⟨s, end_idx⟩, t⟩]⟩
      else .error .valueError
    | _, _ => .error .assertionError

def REPAIR_CONLL : String := "conlleval"
def REPAIR_DISCARD : String := "discard"
def REPAIR_NONE : String := "none"
def SUPPORTED_REPAIR_METHODS : List String := [REPAIR_CONLL, REPAIR_DISCARD, REPAIR_NONE]

/-- `output_labels[i] = lab`: Python list assignment raises `IndexError`
out of range. -/
def listSet (A : List Str) (i : Nat) (lab : Str) : Except RunError (List Str) :=
  if i < A.length then .ok (A.set i lab) else .error .indexError

/-- The shared shape of every decoding loop: `for idx, label in
enumerate(labels)` threading the builder, with exceptions propagating. -/
def foldSteps (step : Nat → MentionBuilder → Str → Except RunError MentionBuilder) :
    Nat → MentionBuilder → List Str → Except RunError MentionBuilder
  | _, b, [] => .ok b
  | idx, b, label :: rest => do
    let b ← step idx b label
    foldSteps step (idx + 1) b rest

/-- Shared end-of-loop handling of the IO/IOB/BIO decoders: close a
still-open mention at index `n` (the source writes `idx + 1` with `idx`
the last loop index, which equals the number of labels whenever a mention
is open), then assert no mention remains open and return the collected
mentions. -/
def decodeFinish (n : Nat) (b : MentionBuilder) : Except RunError (List Mention) := do
  let b ← if b.in_mention then b.end_mention n else pure b
  if b.in_mention then .error .assertionError else .ok b.mentions

/-! ## IO scheme (source class `IO`, modelled as `Io`) -/

def Io.valid_same_type_transitions (d : Dialect) : List (Str × Str) :=
  [(d.inside, d.inside), (d.outside, d.outside)]

def Io.valid_different_type_transitions (d : Dialect) : List (Str × Str) :=
  [(d.inside, d.inside), (d.outside, d.inside), (d.inside, d.outside)]

def Io.valid_states (d : Dialect) : List Str := [d.inside, d.outside]

/-- Loop body of `IO.decode_labels`. -/
def Io.step (d : Dialect) (idx : Nat) (b : MentionBuilder) (label : Str) :
    Except RunError MentionBuilder := do
  let (state, entity_type) ← split_label d label
  if state = d.inside then
    if b.in_mention then
      if entity_type ≠ b.entity_type then do
        let b ← b.end_mention idx
        b.start_mention idx entity_type
      else .ok b
    else
      b.start_mention idx entity_type
  else
    if state = d.outside then
      if b.in_mention then b.end_mention idx else .ok b
    else .error .assertionError

def Io.decode_labels (d : Dialect) (labels : List Str) : Except RunError (List Mention) :=
  foldSteps (Io.step d) 0 MentionBuilder.init labels >>= decodeFinish labels.length

/-- Body of the `for mention in mentions` loop of `IO.encode_mentions`; the
inner loop is `for idx in range(span.start + 1, span.end)`. -/
def Io.writeMention (d : Dialect) (A : List Str) (m : Mention) : Except RunError (List Str) := do
  let label ← join_label d d.inside (some m.type)
  let A ← listSet A m.span.start label
  (List.range' (m.span.start + 1) (m.span.stop - (m.span.start + 1))).foldlM
    (fun A idx => listSet A idx label) A

def Io.encode_mentions (d : Dialect) (mentions : List Mention) (sequence_length : Nat) :
    Except RunError (List Str) :=
  mentions.foldlM (Io.writeMention d) (List.replicate sequence_length d.outside)

def Io.repair_labels (_labels : List Str) (_method : String) : Except RunError (List Str) :=
  .error .notImplementedError

/-! ## IOB scheme (source class `IOB`, modelled as `Iob`) -/

def Iob.valid_same_type_transitions (d : Dialect) : List (Str × Str) :=
  [(d.begin, d.begin), (d.begin, d.inside), (d.inside, d.inside), (d.inside, d.begin),
   (d.outside, d.outside)]

def Iob.valid_different_type_transitions (d : Dialect) : List (Str × Str) :=
  [(d.begin, d.inside), (d.begin, d.outside), (d.inside, d.inside), (d.inside, d.outside),
   (d.outside, d.inside)]

def Iob.valid_states (d : Dialect) : List Str := [d.inside, d.outside, d.begin]

/-- Loop body of `IOB.decode_labels`. -/
def Iob.step (d : Dialect) (idx : Nat) (b : MentionBuilder) (label : Str) :
    Except RunError MentionBuilder := do
  let (state, entity_type) ← split_label d label
  if state = d.begin then
    if ¬ b.in_mention ∨ (b.in_mention ∧ entity_type ≠ b.entity_type) then
      .error (.encodingError "Begin only allowed after a mention of the same type")
    else do
      let b ← b.end_mention idx
      b.start_mention idx entity_type
  else if state = d.inside then
    if b.in_mention then
      if entity_type ≠ b.entity_type then do
        let b ← b.end_mention idx
        b.start_mention idx entity_type
      else .ok b
    else
      b.start_mention idx entity_type
  else
    if state = d.outside then
      if b.in_mention then b.end_mention idx else .ok b
    else .error .assertionError

def Iob.decode_labels (d : Dialect) (labels : List Str) : Except RunError (List Mention) :=
  foldSteps (Iob.step d) 0 MentionBuilder.init labels >>= decodeFinish labels.length

/-- One pass of `IOB.repair_labels` over the remaining labels.  The
previous state/type always reflect the already-repaired history. -/
def Iob.repairGo (d : Dialect) (prev_state : Str) (prev_entity_type : Option Str) :
    List Str → Except RunError (List Str)
  | [] => .ok []
  | label :: rest => do
    let (state, entity_type) ← split_label d label
    if is_valid_transition (Iob.valid_same_type_transitions d)
        (Iob.valid_different_type_transitions d) prev_state prev_entity_type state entity_type then do
      let out ← Iob.repairGo d state entity_type rest
      .ok (label :: out)
    else
      if state = d.begin then
        match entity_type with
        | some (c :: cs) => do
          let label2 ← join_label d d.inside (some (c :: cs))
          let out ← Iob.repairGo d d.inside (some (c :: cs)) rest
          .ok (label2 :: out)
        | _ => .error .assertionError
      else .error .assertionError

def Iob.repair_labels (d : Dialect) (labels : List Str) (method : String) :
    Except RunError (List Str) :=
  if method = REPAIR_NONE then .error .valueError
  else if method ≠ REPAIR_CONLL then .error .valueError
  else do
    let (prev_state, prev_entity_type) ← split_label d d.outside
    Iob.repairGo d prev_state prev_entity_type labels

/-- Body of the `for mention in mentions` loop of `IOB.encode_mentions`,
threading `(labels, last_end, last_type)`. -/
def Iob.writeMention (d : Dialect) (acc : List Str × Option Nat × Option Str) (m : Mention) :
    Except RunError (List Str × Option Nat × Option Str) := do
  let (A, last_end, last_type) := acc
  let start_state :=
    if some m.span.start = last_end ∧ some m.type = last_type then d.begin else d.inside
  let start_label ← join_label d start_state (some m.type)
  let A ← listSet A m.span.start start_label
  let inside_label ← join_label d d.inside (some m.type)
  let A ← (List.range' (m.span.start + 1) (m.span.stop - (m.span.start + 1))).foldlM
    (fun A idx => listSet A idx inside_label) A
  .ok (A, some m.span.stop, some m.type)

def Iob.encode_mentions (d : Dialect) (mentions : List Mention) (sequence_length : Nat) :
    Except RunError (List Str) := do
  let (A, _, _) ← mentions.foldlM (Iob.writeMention d)
    (List.replicate sequence_length d.outside, none, none)
  .ok A

/-! ## BIO scheme (source class `BIO`, modelled as `Bio`) -/

def Bio.valid_same_type_transitions (d : Dialect) : List (Str × Str) :=
  [(d.begin, d.inside), (d.begin, d.begin), (d.inside, d.inside), (d.inside, d.begin),
   (d.outside, d.outside)]

def Bio.valid_different_type_transitions (d : Dialect) : List (Str × Str) :=
  [(d.begin, d.begin), (d.begin, d.outside), (d.inside, d.begin), (d.inside, d.outside),
   (d.outside, d.begin)]

def Bio.valid_states (d : Dialect) : List Str := [d.begin, d.inside, d.outside]

/-- Loop body of `BIO.decode_labels`.  Note the source's `if`/`elif` chain
has no final `else`: a state that is none of begin/inside/outside is
silently skipped. -/
def Bio.step (d : Dialect) (idx : Nat) (b : MentionBuilder) (label : Str) :
    Except RunError MentionBuilder := do
  let (state, entity_type) ← split_label d label
  let b ← if b.in_mention ∧ state ≠ d.inside then b.end_mention idx else pure b
  if state = d.begin then
    b.start_mention idx entity_type
  else if state = d.inside then
    if entity_type ≠ b.entity_type then
      .error (.encodingError
        (if truthy b.entity_type then "Illegal use of label to continue mention"
         else "Illegal use of label to begin a mention"))
    else if b.in_mention then .ok b else .error .assertionError
  else if state = d.outside then
    if b.in_mention then .error .assertionError else .ok b
  else .ok b

/-- End-of-loop handling of `BIO.decode_labels`: the source closes an open
mention at `idx + 1`, where `idx` is the final loop index; when a mention
is open the loop has run, so `idx + 1` equals the number of labels. -/
def Bio.decode_labels (d : Dialect) (labels : List Str) : Except RunError (List Mention) :=
  foldSteps (Bio.step d) 0 MentionBuilder.init labels >>= decodeFinish labels.length

def Bio.writeMention (d : Dialect) (A : List Str) (m : Mention) : Except RunError (List Str) := do
  let start_label ← join_label d d.begin (some m.type)
  let A ← listSet A m.span.start start_label
  let inside_label ← join_label d d.inside (some m.type)
  (List.range' (m.span.start + 1) (m.span.stop - (m.span.start + 1))).foldlM
    (fun A idx => listSet A idx inside_label) A

def Bio.encode_mentions (d : Dialect) (mentions : List Mention) (sequence_length : Nat) :
    Except RunError (List Str) :=
  mentions.foldlM (Bio.writeMention d) (List.replicate sequence_length d.outside)

/-- One pass of `BIO.repair_labels`; the previous state/type always
reflect the already-repaired history. -/
def Bio.repairGo (d : Dialect) (method : String) (prev_state : Str)
    (prev_entity_type : Option Str) : List Str → Except RunError (List Str)
  | [] => .ok []
  | label :: rest => do
    let (state, entity_type) ← split_label d label
    if is_valid_transition (Bio.valid_same_type_transitions d)
        (Bio.valid_different_type_transitions d) prev_state prev_entity_type state entity_type then do
      let out ← Bio.repairGo d method state entity_type rest
      .ok (label :: out)
    else
      match entity_type with
      | some (c :: cs) =>
        if method = REPAIR_CONLL then do
          let label2 ← join_label d d.begin (some (c :: cs))
          let out ← Bio.repairGo d method d.begin (some (c :: cs)) rest
          .ok (label2 :: out)
        else if method = REPAIR_DISCARD then do
          let label2 ← join_label d d.outside none
          let out ← Bio.repairGo d method d.outside none rest
          .ok (label2 :: out)
        else .error .valueError
      | _ => .error .assertionError

def Bio.repair_labels (d : Dialect) (labels : List Str) (method : String) :
    Except RunError (List Str) :=
  if method = REPAIR_NONE then .error .valueError
  else if ¬ method ∈ SUPPORTED_REPAIR_METHODS then .error .valueError
  else do
    let (prev_state, prev_entity_type) ← split_label d d.outside
    Bio.repairGo d method prev_state prev_entity_type labels

/-! ## BIOES family (source class `BIOES`, modelled as `Bioes`; the
dialect argument covers BIOES, BILOU, BMES and BMEOW) -/

def Bioes.valid_same_type_transitions (d : Dialect) : List (Str × Str) :=
  [(d.begin, d.inside), (d.begin, d.ends), (d.begin, d.begin), (d.begin, d.single),
   (d.inside, d.inside), (d.inside, d.ends), (d.ends, d.begin), (d.ends, d.single),
   (d.single, d.begin), (d.single, d.single), (d.outside, d.outside)]

def Bioes.valid_different_type_transitions (d : Dialect) : List (Str × Str) :=
  [(d.ends, d.begin), (d.ends, d.outside), (d.ends, d.single), (d.single, d.begin),
   (d.single, d.outside), (d.single, d.single), (d.outside, d.begin), (d.outside, d.single)]

def Bioes.valid_states (d : Dialect) : List Str :=
  [d.begin, d.inside, d.outside, d.ends, d.single]

/-- Loop body of `BIOES.decode_labels`: every branch checks its builder
state with an assertion. -/
def Bioes.step (d : Dialect) (idx : Nat) (b : MentionBuilder) (label : Str) :
    Except RunError MentionBuilder := do
  let (state, entity_type) ← split_label d label
  if state = d.single then
    if b.in_mention then .error .assertionError
    else do
      let b ← b.start_mention idx entity_type
      b.end_mention (idx + 1)
  else if state = d.begin then
    if b.in_mention then .error .assertionError
    else b.start_mention idx entity_type
  else if state = d.ends then
    if ¬ b.in_mention then .error .assertionError
    else b.end_mention (idx + 1)
  else if state = d.inside then
    if b.in_mention then .ok b else .error .assertionError
  else
    if state = d.outside then
      if b.in_mention then .error .assertionError else .ok b
    else .error .assertionError

/-- `BIOES.decode_labels`: no end-of-sequence cleanup, only the closing
assertion that no mention is still open. -/
def Bioes.decode_labels (d : Dialect) (labels : List Str) : Except RunError (List Mention) := do
  let b ← foldSteps (Bioes.step d) 0 MentionBuilder.init labels
  if b.in_mention then .error .assertionError else .ok b.mentions

def Bioes.writeMention (d : Dialect) (A : List Str) (m : Mention) :
    Except RunError (List Str) := do
  if m.span.stop - m.span.start = 1 then do
    let lab ← join_label d d.single (some m.type)
    listSet A m.span.start lab
  else do
    let start_label ← join_label d d.begin (some m.type)
    let A ← listSet A m.span.start start_label
    (List.range' (m.span.start + 1) (m.span.stop - (m.span.start + 1))).foldlM
      (fun A idx => do
        let state := if idx = m.span.stop - 1 then d.ends else d.inside
        let lab ← join_label d state (some m.type)
        listSet A idx lab) A

def Bioes.encode_mentions (d : Dialect) (mentions : List Mention) (sequence_length : Nat) :
    Except RunError (List Str) :=
  mentions.foldlM (Bioes.writeMention d) (List.replicate sequence_length d.outside)

def Bioes.repair_labels (_labels : List Str) (_method : String) : Except RunError (List Str) :=
  .error .notImplementedError

/-! ## Validation (seqscore/validation.py) -/

/-- The `Encoding` interface as consumed by `validate_labels`: the dialect,
the two transition tables, the valid-state set and the scheme's
`repair_labels`. -/
structure Encoding where
  dialect : Dialect
  valid_same_type_transitions : List (Str × Str)
  valid_different_type_transitions : List (Str × Str)
  valid_states : List Str
  repair_labels : List Str → String → Except RunError (List Str)

def Encoding.is_valid_state (enc : Encoding) (state : Str) : Bool :=
  decide (state ∈ enc.valid_states)

def Io.encoding (d : Dialect) : Encoding :=
  ⟨d, Io.valid_same_type_transitions d, Io.valid_different_type_transitions d,
   Io.valid_states d, fun labels method => Io.repair_labels labels method⟩

def Iob.encoding (d : Dialect) : Encoding :=
  ⟨d, Iob.valid_same_type_transitions d, Iob.valid_different_type_transitions d,
   Iob.valid_states d, Iob.repair_labels d⟩

def Bio.encoding (d : Dialect) : Encoding :=
  ⟨d, Bio.valid_same_type_transitions d, Bio.valid_different_type_transitions d,
   Bio.valid_states d, Bio.repair_labels d⟩

def Bioes.encoding (d : Dialect) : Encoding :=
  ⟨d, Bioes.valid_same_type_transitions d, Bioes.valid_different_type_transitions d,
   Bioes.valid_states d, fun labels method => Bioes.repair_labels labels method⟩

/-- The two `ValidationError` subclasses. -/
inductive VErrorKind where
  | invalidState
  | invalidTransition
deriving DecidableEq, Repr

/-- `ValidationError` (with `kind` standing for the subclass used). -/
structure ValidationError where
  kind : VErrorKind
  msg : String
  label : Str
  type : Option Str
  state : Str
  token : Option String
  line_num : Option Nat
deriving DecidableEq, Repr

/-- Message suffix built from the optional token and line number (the
source interpolates them into the message with `+=`). -/
def msgContext (token : Option String) (line_num : Option Nat) (tokenWord : String) : String :=
  (match token with
   | some t => " " ++ tokenWord ++ " token " ++ t
   | none => "") ++
  (match line_num with
   | some n => " on line " ++ toString n
   | none => "")

def invalidStateMsg (state label : Str) (token : Option String) (line_num : Option Nat) :
    String :=
  "Invalid state " ++ String.mk state ++ " in label " ++ String.mk label ++
    msgContext token line_num "for"

def invalidTransitionMsg (prev_label label : Str) (token : Option String)
    (line_num : Option Nat) : String :=
  "Invalid transition " ++ String.mk prev_label ++ " -> " ++ String.mk label ++
    msgContext token line_num "for"

def invalidFinalTransitionMsg (prev_label label : Str) (token : Option String)
    (line_num : Option Nat) : String :=
  "Invalid transition " ++ String.mk prev_label ++ " -> " ++ String.mk label ++
    msgContext token line_num "after" ++ " at end of sequence"

/-- The token (resp. line number) attached to the error at position `idx`:
`tokens[idx]` when `tokens` is truthy, else `None`. -/
def ctxAt {α : Type} (xs : Option (List α)) (idx : Nat) : Option α :=
  if truthyL xs then (xs.getD [])[idx]? else none

/-- `tokens[-1]` (resp. `line_nums[-1]`) used by the end-of-sequence check. -/
def ctxLast {α : Type} (xs : Option (List α)) : Option α :=
  if truthyL xs then (xs.getD []).getLast? else none

/-- The walk of `validate_labels`: one pass over the labels threading the
previous label/state/type, collecting invalid-state and invalid-transition
errors in order, with the end-of-sequence transition check when the labels
run out. -/
def validateGo (enc : Encoding) (tokens : Option (List String))
    (line_nums : Option (List Nat)) (idx : Nat) (prev_label : Str) (prev_state : Str)
    (prev_entity_type : Option Str) : List Str → Except RunError (List ValidationError)
  | [] => do
    let label := enc.dialect.outside
    let (state, entity_type) ← split_label enc.dialect label
    if is_valid_transition enc.valid_same_type_transitions
        enc.valid_different_type_transitions prev_state prev_entity_type state entity_type then
      .ok []
    else
      let token := ctxLast tokens
      let line_num := ctxLast line_nums
      .ok [⟨.invalidTransition, invalidFinalTransitionMsg prev_label label token line_num,
            prev_label, prev_entity_type, prev_state, token, line_num⟩]
  | label :: rest => do
    let (state, entity_type) ← split_label enc.dialect label
    let token := ctxAt tokens idx
    let line_num := ctxAt line_nums idx
    let stateErrs :=
      if ¬ enc.is_valid_state state then
        [⟨VErrorKind.invalidState, invalidStateMsg state label token line_num,
          label, entity_type, state, token, line_num⟩]
      else []
    let transErrs :=
      if ¬ is_valid_transition enc.valid_same_type_transitions
          enc.valid_different_type_transitions prev_state prev_entity_type state entity_type then
        [⟨VErrorKind.invalidTransition, invalidTransitionMsg prev_label label token line_num,
          label, entity_type, state, token, line_num⟩]
      else []
    let restErrs ← validateGo enc tokens line_nums (idx + 1) label state entity_type rest
    .ok (stateErrs ++ transErrs ++ restErrs)

/-- `SequenceValidationResult` (the derived accessors `is_valid` etc. are
not needed by the claims). -/
structure SequenceValidationResult where
  errors : List ValidationError
  n_tokens : Nat
  repaired_labels : List Str
  tokens : Option (List String)
  labels : Option (List Str)
  line_nums : Option (List Nat)
deriving DecidableEq, Repr

/-- `validate_labels`.  The two leading `assert` statements check the
optional tokens/line numbers have the same length as the labels; when
errors were found and a truthy repair method was passed, the scheme's
`repair_labels` runs and its output is attached to the result. -/
def validate_labels (labels : List Str) (enc : Encoding) (repair : Option String)
    (tokens : Option (List String)) (line_nums : Option (List Nat)) :
    Except RunError SequenceValidationResult :=
  if truthyL tokens ∧ (tokens.getD []).length ≠ labels.length then .error .assertionError
  else if truthyL line_nums ∧ (line_nums.getD []).length ≠ labels.length then
    .error .assertionError
  else do
    let (prev_state, prev_entity_type) ← split_label enc.dialect enc.dialect.outside
    let errors ← validateGo enc tokens line_nums 0 enc.dialect.outside prev_state
      prev_entity_type labels
    if errors ≠ [] ∧ truthyS repair then do
      let repaired ← enc.repair_labels labels (repair.getD "")
      .ok ⟨errors, labels.length, repaired, tokens, some labels, line_nums⟩
    else
      .ok ⟨errors, labels.length, [], tokens, some labels, line_nums⟩

/-! ## Basic facts about the label codec -/

/-- Sanity of a dialect's symbol table, satisfied by the four dialects the
source constructs: the delimiter occurs in no symbol, and the symbols are
nonempty and pairwise distinct. -/
@[mk_iff] structure Dialect.Sane (d : Dialect) : Prop where
  delim_begin : d.label_delim ∉ d.begin
  delim_inside : d.label_delim ∉ d.inside
  delim_outside : d.label_delim ∉ d.outside
  delim_ends : d.label_delim ∉ d.ends
  delim_single : d.label_delim ∉ d.single
  begin_ne : d.begin ≠ []
  inside_ne : d.inside ≠ []
  outside_ne : d.outside ≠ []
  ends_ne : d.ends ≠ []
  single_ne : d.single ≠ []
  bi : d.begin ≠ d.inside
  bo : d.begin ≠ d.outside
  be : d.begin ≠ d.ends
  bs : d.begin ≠ d.single
  io_ne : d.inside ≠ d.outside
  ie : d.inside ≠ d.ends
  its : d.inside ≠ d.single
  oe : d.outside ≠ d.ends
  os : d.outside ≠ d.single
  es : d.ends ≠ d.single

instance (d : Dialect) : Decidable d.Sane :=
  decidable_of_iff _ (Dialect.sane_iff d).symm

theorem splitOnFirst_of_not_mem {delim : Char} {s : Str} (h : delim ∉ s) :
    splitOnFirst delim s = none := by
  induction s with
  | nil => rfl
  | cons c cs ih =>
    have hc : ¬ c = delim := fun hh => h (hh ▸ List.mem_cons_self c cs)
    have hcs : delim ∉ cs := fun hh => h (List.mem_cons_of_mem _ hh)
    simp [splitOnFirst, hc, ih hcs]

theorem splitOnFirst_append {delim : Char} {s : Str} (t : Str) (h : delim ∉ s) :
    splitOnFirst delim (s ++ delim :: t) = some (s, t) := by
  induction s with
  | nil => simp [splitOnFirst]
  | cons c cs ih =>
    have hc : ¬ c = delim := fun hh => h (hh ▸ List.mem_cons_self c cs)
    have hcs : delim ∉ cs := fun hh => h (List.mem_cons_of_mem _ hh)
    simp [splitOnFirst, hc, ih hcs]

theorem split_label_outside {d : Dialect} (h : d.label_delim ∉ d.outside) :
    split_label d d.outside = .ok (d.outside, none) := by
  simp [split_label, splitOnFirst_of_not_mem h]

theorem split_label_joined {d : Dialect} {s : Str} (t : Str) (hs : d.label_delim ∉ s)
    (ho : s ≠ d.outside) :
    split_label d (s ++ d.label_delim :: t) = .ok (s, some t) := by
  simp [split_label, splitOnFirst_append t hs, ho]

theorem join_label_some {d : Dialect} {s : Str} (c : Char) (cs : Str) (ho : s ≠ d.outside) :
    join_label d s (some (c :: cs)) = .ok (s ++ d.label_delim :: c :: cs) := by
  simp [join_label, ho]

theorem join_label_none {d : Dialect} : join_label d d.outside none = .ok d.outside := by
  simp [join_label]

/-- Whether a result is a raised `EncodingError` (as opposed to a normal
return or any other kind of failure). -/
def isEncErr {α : Type} : Except RunError α → Bool
  | .error (.encodingError _) => true
  | _ => false

def strs (xs : List String) : List Str := xs.map String.toList

/-- C4 as frozen is false: the pair `("B-X", some "PER")` satisfies the
outside-invariant, but `join` glues the pieces with the delimiter and
`split` cuts at the *first* delimiter, returning `("B", some "X-PER")`. -/
theorem claim_C4_cex :
    ((some ("PER".toList) = none ↔ ("B-X".toList : Str) = BIOESDialect.outside) ∧
      ¬ (join_label BIOESDialect ("B-X".toList) (some ("PER".toList))).bind
          (split_label BIOESDialect) = .ok ("B-X".toList, some ("PER".toList))) := by
  decide

/-- C4 (amended): for every `(state, type)` pair satisfying the
outside-invariant, where additionally the state does not contain the
delimiter character and the type (when present) is nonempty,
`split_label (join_label state type)` returns `(state, type)` — in
particular when the *type* contains the delimiter, because `split_label`
splits only on the first delimiter occurrence. -/
theorem claim_C4_roundtrip (d : Dialect) (state : Str) (entity_type : Option Str)
    (hinv : entity_type = none ↔ state = d.outside)
    (hdelim : d.label_delim ∉ state)
    (hne : entity_type ≠ some []) :
    ∃ label, join_label d state entity_type = .ok label ∧
      split_label d label = .ok (state, entity_type) := by
  cases entity_type with
  | none =>
    have hout : state = d.outside := hinv.mp rfl
    subst hout
    exact ⟨d.outside, join_label_none, split_label_outside hdelim⟩
  | some t =>
    have hout : state ≠ d.outside := by
      intro hh
      exact (by simp : some t ≠ none) (hinv.mpr hh)
    cases t with
    | nil => exact absurd rfl hne
    | cons c cs =>
      exact ⟨state ++ d.label_delim :: c :: cs, join_label_some c cs hout,
        split_label_joined (c :: cs) hdelim hout⟩

theorem claim_C4_roundtrip_witness :
    ((some ("ORG-CORP".toList) = none ↔ ("B".toList : Str) = BIOESDialect.outside) ∧
      BIOESDialect.label_delim ∉ ("B".toList : Str) ∧
      some ("ORG-CORP".toList) ≠ some ([] : Str)) ∧
    ∃ label, join_label BIOESDialect ("B".toList) (some ("ORG-CORP".toList)) = .ok label ∧
      split_label BIOESDialect label = .ok ("B".toList, some ("ORG-CORP".toList)) :=
  ⟨⟨by decide, by decide, by decide⟩,
    claim_C4_roundtrip BIOESDialect ("B".toList) (some ("ORG-CORP".toList))
      (by decide) (by decide) (by decide)⟩

/-- C5: `split_label` only ever returns pairs satisfying the
outside-invariant (`entity_type = none` iff the state is the outside
symbol); a delimiter-free label different from outside, and a label whose
state part is outside but which carries a type, both raise an
`EncodingError` instead of being accepted. -/
theorem claim_C5_split_invariant (d : Dialect) (label : Str)
    (h : d.label_delim ∉ d.outside) :
    (∀ state entity_type, split_label d label = .ok (state, entity_type) →
      (entity_type = none ↔ state = d.outside)) ∧
    (d.label_delim ∉ label → label ≠ d.outside → isEncErr (split_label d label) = true) ∧
    (∀ t, label = d.outside ++ d.label_delim :: t → isEncErr (split_label d label) = true) := by
  refine ⟨?_, ?_, ?_⟩
  · intro state entity_type hok
    unfold split_label at hok
    rcases hsplit : splitOnFirst d.label_delim label with - | ⟨s, t⟩ <;>
      rw [hsplit] at hok
    · by_cases hlbl : label = d.outside
      · simp [hlbl] at hok
        simp [← hok.1, ← hok.2, hlbl]
      · simp [hlbl] at hok
    · by_cases hso : s = d.outside
      · simp [hso] at hok
      · simp [hso] at hok
        simp [← hok.1, ← hok.2, hso]
  · intro hd hne
    rw [split_label, splitOnFirst_of_not_mem hd]
    simp [hne, isEncErr]
  · intro t hlbl
    subst hlbl
    rw [split_label, splitOnFirst_append t h]
    simp [isEncErr]

theorem claim_C5_split_invariant_witness :
    (BIOESDialect.label_delim ∉ BIOESDialect.outside) ∧
    ((∀ state entity_type, split_label BIOESDialect ("B-PER".toList) = .ok (state, entity_type) →
        (entity_type = none ↔ state = BIOESDialect.outside)) ∧
      (BIOESDialect.label_delim ∉ ("B-PER".toList : Str) → ("B-PER".toList : Str) ≠ BIOESDialect.outside →
        isEncErr (split_label BIOESDialect ("B-PER".toList)) = true) ∧
      (∀ t, ("B-PER".toList : Str) = BIOESDialect.outside ++ BIOESDialect.label_delim :: t →
        isEncErr (split_label BIOESDialect ("B-PER".toList)) = true)) :=
  ⟨by decide, claim_C5_split_invariant BIOESDialect ("B-PER".toList) (by decide)⟩

/-- C6: the concrete BIO scenarios.  `["I-PER"]` yields exactly one
invalid-transition error and repairs to `["B-PER"]` (conlleval) or `["O"]`
(discard); `["B-ORG","I-PER","I-PER"]` yields exactly one error, at
position 1 (witnessed through its attached line number), and conlleval
repair gives `["B-ORG","B-PER","I-PER"]`. -/
theorem claim_C6_bio_scenarios :
    ((validate_labels (strs ["I-PER"]) (Bio.encoding BIOESDialect) none none none).map
        (fun r => r.errors.map (fun e => e.kind)) = .ok [.invalidTransition]) ∧
    Bio.repair_labels BIOESDialect (strs ["I-PER"]) REPAIR_CONLL = .ok (strs ["B-PER"]) ∧
    Bio.repair_labels BIOESDialect (strs ["I-PER"]) REPAIR_DISCARD = .ok (strs ["O"]) ∧
    ((validate_labels (strs ["B-ORG","I-PER","I-PER"]) (Bio.encoding BIOESDialect) none none
        (some [0, 1, 2])).map (fun r => r.errors.map (fun e => (e.kind, e.line_num))) =
      .ok [(.invalidTransition, some 1)]) ∧
    Bio.repair_labels BIOESDialect (strs ["B-ORG","I-PER","I-PER"]) REPAIR_CONLL =
      .ok (strs ["B-ORG","B-PER","I-PER"]) := by
  decide

/-- C8: across the BIOES family (all four dialects), decoding an input
that ends inside an unclosed mention fails with an assertion failure — not
a catchable `EncodingError`, not a mention list — while BIO closes the
open mention at the sequence length and returns it. -/
theorem claim_C8_unclosed_at_end :
    Bioes.decode_labels BIOESDialect (strs ["B-PER"]) = .error .assertionError ∧
    Bioes.decode_labels BILOUDialect (strs ["B-PER"]) = .error .assertionError ∧
    Bioes.decode_labels BMESDialect (strs ["B-PER"]) = .error .assertionError ∧
    Bioes.decode_labels BMEOWDialect (strs ["B-PER"]) = .error .assertionError ∧
    Bioes.decode_labels BIOESDialect (strs ["B-PER", "I-PER"]) = .error .assertionError ∧
    isEncErr (Bioes.decode_labels BIOESDialect (strs ["B-PER"])) = false ∧
    Bio.decode_labels BIOESDialect (strs ["B-PER"]) = .ok [⟨⟨0, 1⟩, "PER".toList⟩] ∧
    Bio.decode_labels BIOESDialect (strs ["B-PER", "I-PER"]) = .ok [⟨⟨0, 2⟩, "PER".toList⟩] := by
  decide

theorem isEncErr_bind {α β : Type} (x : Except RunError α) (f : α → Except RunError β)
    (h : isEncErr x = true) : isEncErr (x >>= f) = true := by
  rcases x with e | a
  · rw [except_bind_error]
    cases e <;> simp_all [isEncErr]
  · simp [isEncErr] at h

/-- `split_label` either succeeds or raises an `EncodingError`; no other
failure is possible. -/
theorem split_label_ok_or_encErr (d : Dialect) (l : Str) :
    isEncErr (split_label d l) = true ∨ ∃ s et, split_label d l = .ok (s, et) := by
  unfold split_label
  rcases splitOnFirst d.label_delim l with - | ⟨s, t⟩
  · by_cases hl : l = d.outside <;> simp [hl, isEncErr]
  · by_cases hs : s = d.outside <;> simp [hs, isEncErr]

theorem validateGo_encErr (enc : Encoding) (labels : List Str) :
    ∀ (idx : Nat) (pl ps : Str) (pe : Option Str),
      (∃ l ∈ labels, isEncErr (split_label enc.dialect l) = true) →
      isEncErr (validateGo enc none none idx pl ps pe labels) = true := by
  induction labels with
  | nil =>
    intro idx pl ps pe h
    simp at h
  | cons l rest ih =>
    intro idx pl ps pe h
    rcases h with ⟨l', hl', hbad⟩
    rcases List.mem_cons.mp hl' with rfl | hmem
    · exact isEncErr_bind _ _ hbad
    · rcases split_label_ok_or_encErr enc.dialect l with hl | ⟨s, et, hok⟩
      · exact isEncErr_bind _ _ hl
      · show isEncErr (split_label enc.dialect l >>= _) = true
        rw [hok, except_bind_ok]
        exact isEncErr_bind _ _ (ih (idx + 1) l s et ⟨l', hmem, hbad⟩)

/-- C10: when some label in the sequence cannot be parsed at all,
`validate_labels` does not record a `ValidationError` — the `EncodingError`
raised by `split_label` propagates out, so validation aborts instead of
returning a collected error list. -/
theorem claim_C10_validate_propagates (enc : Encoding) (labels : List Str)
    (hout : ∃ p, split_label enc.dialect enc.dialect.outside = .ok p)
    (hbad : ∃ l ∈ labels, isEncErr (split_label enc.dialect l) = true) :
    isEncErr (validate_labels labels enc none none none) = true := by
  rcases hout with ⟨⟨ps, pe⟩, hps⟩
  unfold validate_labels
  simp only [truthyL, false_and, if_false, hps, except_bind_ok]
  exact isEncErr_bind _ _ (validateGo_encErr enc labels 0 enc.dialect.outside ps pe hbad)

theorem claim_C10_validate_propagates_witness :
    ((∃ p, split_label BIOESDialect BIOESDialect.outside = .ok p) ∧
      ∃ l ∈ strs ["B-ORG", "B"], isEncErr (split_label BIOESDialect l) = true) ∧
    isEncErr (validate_labels (strs ["B-ORG", "B"]) (Bio.encoding BIOESDialect)
      none none none) = true :=
  ⟨⟨⟨(BIOESDialect.outside, none), by decide⟩, by decide⟩,
    claim_C10_validate_propagates (Bio.encoding BIOESDialect) (strs ["B-ORG", "B"])
      ⟨(BIOESDialect.outside, none), by decide⟩ (by decide)⟩

/-! ## Round-trip machinery: well-formed mention lists and the exact shape
of encoder output -/

/-- An ordered, non-overlapping mention list whose spans lie within
`[lo, len)`, with the constructor invariants of the source model:
`start < stop` (Span validation) and a nonempty type (Mention
validation). -/
def mentionsOK (lo len : Nat) : List Mention → Bool
  | [] => true
  | m :: ms =>
    decide (lo ≤ m.span.start) && decide (m.span.start < m.span.stop) &&
      decide (m.span.stop ≤ len) && decide (m.type ≠ []) && mentionsOK m.span.stop len ms

theorem foldlM_cons_except {σ α : Type} (f : σ → α → Except RunError σ) (i : σ) (a : α)
    (l : List α) : List.foldlM f i (a :: l) = f i a >>= fun i' => List.foldlM f i' l := rfl

theorem foldlM_nil_except {σ α : Type} (f : σ → α → Except RunError σ) (i : σ) :
    List.foldlM f i ([] : List α) = .ok i := rfl

theorem set_boundary {α : Type} (U : List α) (x a : α) (T : List α) :
    (U ++ x :: T).set U.length a = U ++ a :: T := by
  rw [List.set_append_right _ _ (Nat.le_refl _)]
  simp

theorem listSet_boundary (U : List Str) (x a : Str) (T : List Str) :
    listSet (U ++ x :: T) U.length a = .ok (U ++ a :: T) := by
  rw [listSet, if_pos (by simp only [List.length_append, List.length_cons]; omega)]
  rw [set_boundary]

/-- Effect of the inner write loop `for idx in range(i, i + n)` on a list
whose entries from position `i` on are still all `o`. -/
theorem fill_loop (lab o : Str) :
    ∀ (n : Nat) (U : List Str) (k : Nat), n ≤ k →
      (List.range' U.length n).foldlM (fun A idx => listSet A idx lab)
          (U ++ List.replicate k o) =
        .ok (U ++ (List.replicate n lab ++ List.replicate (k - n) o)) := by
  intro n
  induction n with
  | zero =>
    intro U k hk
    simp [List.range', foldlM_nil_except]
  | succ n ih =>
    intro U k hk
    rw [List.range'_succ U.length n 1]
    obtain ⟨k', rfl⟩ : ∃ k', k = k' + 1 := ⟨k - 1, by omega⟩
    rw [show List.replicate (k' + 1) o = o :: List.replicate k' o from rfl]
    rw [foldlM_cons_except, listSet_boundary, except_bind_ok]
    have hU : U ++ lab :: List.replicate k' o = (U ++ [lab]) ++ List.replicate k' o := by
      simp
    rw [hU]
    have hlen : U.length + 1 = (U ++ [lab]).length := by simp
    rw [hlen, ih (U ++ [lab]) k' (by omega)]
    simp [List.replicate_succ, Nat.succ_sub_succ]

/-- The exact output of `BIO.encode_mentions` on an ordered,
non-overlapping mention list, written structurally: an outside gap, the
begin label, the inside run, then the rest of the mentions. -/
def bioShape (d : Dialect) (len : Nat) (pos : Nat) : List Mention → List Str
  | [] => List.replicate (len - pos) d.outside
  | m :: ms =>
    List.replicate (m.span.start - pos) d.outside ++
      (d.begin ++ d.label_delim :: m.type) ::
        (List.replicate (m.span.stop - m.span.start - 1) (d.inside ++ d.label_delim :: m.type) ++
          bioShape d len m.span.stop ms)

theorem bio_writeMention_shape (d : Dialect) (hd : d.Sane) (P : List Str) (g n r : Nat)
    (c : Char) (cs : Str) :
    Bio.writeMention d (P ++ List.replicate (g + 1 + n + r) d.outside)
        ⟨⟨P.length + g, P.length + g + 1 + n⟩, c :: cs⟩ =
      .ok (P ++ (List.replicate g d.outside ++
        (d.begin ++ d.label_delim :: c :: cs) ::
          (List.replicate n (d.inside ++ d.label_delim :: c :: cs) ++
            List.replicate r d.outside))) := by
  unfold Bio.writeMention
  dsimp only
  rw [join_label_some c cs hd.bo, except_bind_ok]
  rw [join_label_some c cs hd.io_ne]
  have hrep : List.replicate (g + 1 + n + r) d.outside =
      List.replicate g d.outside ++ d.outside :: List.replicate (n + r) d.outside := by
    rw [← List.replicate_succ, ← List.replicate_add]
    congr 1
    omega
  rw [hrep]
  rw [show P ++ (List.replicate g d.outside ++
      d.outside :: List.replicate (n + r) d.outside) =
    (P ++ List.replicate g d.outside) ++
      d.outside :: List.replicate (n + r) d.outside from by simp]
  have hlen1 : P.length + g = (P ++ List.replicate g d.outside).length := by simp
  rw [hlen1, listSet_boundary]
  simp only [except_bind_ok]
  have hcnt : (P ++ List.replicate g d.outside).length + 1 + n -
      ((P ++ List.replicate g d.outside).length + 1) = n := by omega
  rw [hcnt]
  rw [show (P ++ List.replicate g d.outside) ++
      (d.begin ++ d.label_delim :: c :: cs) :: List.replicate (n + r) d.outside =
    ((P ++ List.replicate g d.outside) ++ [d.begin ++ d.label_delim :: c :: cs]) ++
      List.replicate (n + r) d.outside from by simp]
  have hlen2 : (P ++ List.replicate g d.outside).length + 1 =
      ((P ++ List.replicate g d.outside) ++ [d.begin ++ d.label_delim :: c :: cs]).length := by
    simp only [List.length_append, List.length_replicate, List.length_cons, List.length_nil]
  rw [hlen2]
  rw [fill_loop (d.inside ++ d.label_delim :: c :: cs) d.outside n
    ((P ++ List.replicate g d.outside) ++ [d.begin ++ d.label_delim :: c :: cs]) (n + r)
    (by omega)]
  simp

theorem bio_encode_shape (d : Dialect) (hd : d.Sane) :
    ∀ (ms : List Mention) (P : List Str) (k : Nat),
      mentionsOK P.length (P.length + k) ms = true →
      List.foldlM (Bio.writeMention d) (P ++ List.replicate k d.outside) ms =
        .ok (P ++ bioShape d (P.length + k) P.length ms) := by
  intro ms
  induction ms with
  | nil =>
    intro P k h
    rw [foldlM_nil_except]
    simp [bioShape]
  | cons m ms ih =>
    intro P k h
    simp only [mentionsOK, Bool.and_eq_true, decide_eq_true_eq] at h
    obtain ⟨⟨⟨⟨h1, h2⟩, h3⟩, h4⟩, h5⟩ := h
    obtain ⟨c, cs, hct⟩ := List.exists_cons_of_ne_nil h4
    obtain ⟨g, hg⟩ : ∃ g, m.span.start = P.length + g := ⟨m.span.start - P.length, by omega⟩
    obtain ⟨n, hn⟩ : ∃ n, m.span.stop = P.length + g + 1 + n :=
      ⟨m.span.stop - (P.length + g + 1), by omega⟩
    obtain ⟨r, hr⟩ : ∃ r, k = g + 1 + n + r := ⟨k - (g + 1 + n), by omega⟩
    rcases m with ⟨⟨mstart, mstop⟩, mt⟩
    dsimp only at hg hn hct h5
    subst hg hn hct hr
    rw [foldlM_cons_except, bio_writeMention_shape d hd P g n r c cs, except_bind_ok]
    rw [show P ++ (List.replicate g d.outside ++
        (d.begin ++ d.label_delim :: c :: cs) ::
          (List.replicate n (d.inside ++ d.label_delim :: c :: cs) ++
            List.replicate r d.outside)) =
      (P ++ List.replicate g d.outside ++
        (d.begin ++ d.label_delim :: c :: cs) ::
          List.replicate n (d.inside ++ d.label_delim :: c :: cs)) ++
        List.replicate r d.outside from by simp]
    have hlenP : (P ++ List.replicate g d.outside ++
        (d.begin ++ d.label_delim :: c :: cs) ::
          List.replicate n (d.inside ++ d.label_delim :: c :: cs)).length =
        P.length + g + 1 + n := by
      simp only [List.length_append, List.length_replicate, List.length_cons]
      omega
    rw [ih _ r (by rw [hlenP]; rw [show P.length + g + 1 + n + r = P.length + (g + 1 + n + r)
      from by omega]; exact h5)]
    rw [hlenP]
    rw [show P.length + g + 1 + n + r = P.length + (g + 1 + n + r) from by omega]
    simp only [bioShape]
    rw [show P.length + g - P.length = g from by omega]
    rw [show P.length + g + 1 + n - (P.length + g) - 1 = n from by omega]
    simp

/-! ## Decoding the shaped output -/

theorem foldSteps_append (step : Nat → MentionBuilder → Str → Except RunError MentionBuilder)
    (xs ys : List Str) :
    ∀ (idx : Nat) (b : MentionBuilder),
      foldSteps step idx b (xs ++ ys) =
        foldSteps step idx b xs >>= fun b' => foldSteps step (idx + xs.length) b' ys := by
  induction xs with
  | nil =>
    intro idx b
    simp [foldSteps]
  | cons x xs ih =>
    intro idx b
    rw [List.cons_append]
    simp only [foldSteps]
    cases hstep : step idx b x with
    | error e => simp
    | ok b' =>
      simp only [except_bind_ok]
      rw [ih (idx + 1) b']
      rw [show idx + (x :: xs).length = idx + 1 + xs.length from by
        simp only [List.length_cons]; omega]

theorem foldSteps_runs (step : Nat → MentionBuilder → Str → Except RunError MentionBuilder)
    (x : Str) (b : MentionBuilder) (hstep : ∀ j, step j b x = .ok b) :
    ∀ (n idx : Nat), foldSteps step idx b (List.replicate n x) = .ok b := by
  intro n
  induction n with
  | zero => intro idx; rfl
  | succ n ih =>
    intro idx
    simp only [List.replicate_succ, foldSteps, hstep, except_bind_ok]
    exact ih (idx + 1)

theorem bio_step_O_closed (d : Dialect) (hd : d.Sane) (idx : Nat) (acc : List Mention) :
    Bio.step d idx ⟨none, none, acc⟩ d.outside = .ok ⟨none, none, acc⟩ := by
  simp [Bio.step, split_label_outside hd.delim_outside, MentionBuilder.in_mention,
    Ne.symm hd.bo, Ne.symm hd.io_ne]

theorem bio_step_O_open (d : Dialect) (hd : d.Sane) (idx s : Nat) (t : Str)
    (acc : List Mention) (hs : s < idx) :
    Bio.step d idx ⟨some s, some t, acc⟩ d.outside =
      .ok ⟨none, none, acc ++ [⟨⟨s, idx⟩, t⟩]⟩ := by
  simp [Bio.step, split_label_outside hd.delim_outside, MentionBuilder.in_mention,
    MentionBuilder.end_mention, Ne.symm hd.bo, Ne.symm hd.io_ne, hd.io_ne, hs]
  rw [if_neg (show ¬ idx = 0 from by omega)]
  simp

theorem bio_step_B_closed (d : Dialect) (hd : d.Sane) (idx : Nat) (acc : List Mention)
    (c : Char) (cs : Str) :
    Bio.step d idx ⟨none, none, acc⟩ (d.begin ++ d.label_delim :: c :: cs) =
      .ok ⟨some idx, some (c :: cs), acc⟩ := by
  simp [Bio.step, split_label_joined (c :: cs) hd.delim_begin hd.bo,
    MentionBuilder.in_mention, MentionBuilder.start_mention]

theorem bio_step_B_open (d : Dialect) (hd : d.Sane) (idx s : Nat) (t : Str)
    (acc : List Mention) (c : Char) (cs : Str) (hs : s < idx) :
    Bio.step d idx ⟨some s, some t, acc⟩ (d.begin ++ d.label_delim :: c :: cs) =
      .ok ⟨some idx, some (c :: cs), acc ++ [⟨⟨s, idx⟩, t⟩]⟩ := by
  simp [Bio.step, split_label_joined (c :: cs) hd.delim_begin hd.bo,
    MentionBuilder.in_mention, MentionBuilder.end_mention, MentionBuilder.start_mention,
    hd.bi, hs]
  rw [if_neg (show ¬ idx = 0 from by omega)]
  simp

theorem bio_step_I_open (d : Dialect) (hd : d.Sane) (idx s : Nat)
    (acc : List Mention) (c : Char) (cs : Str) :
    Bio.step d idx ⟨some s, some (c :: cs), acc⟩ (d.inside ++ d.label_delim :: c :: cs) =
      .ok ⟨some s, some (c :: cs), acc⟩ := by
  simp [Bio.step, split_label_joined (c :: cs) hd.delim_inside hd.io_ne,
    MentionBuilder.in_mention, Ne.symm hd.bi]

theorem decodeFinish_closed (len : Nat) (acc : List Mention) :
    decodeFinish len ⟨none, none, acc⟩ = .ok acc := by
  simp [decodeFinish, MentionBuilder.in_mention]

theorem decodeFinish_open (len s : Nat) (t : Str) (acc : List Mention) (hs : s < len) :
    decodeFinish len ⟨some s, some t, acc⟩ = .ok (acc ++ [⟨⟨s, len⟩, t⟩]) := by
  simp [decodeFinish, MentionBuilder.in_mention, MentionBuilder.end_mention, hs]
  rw [if_neg (show ¬ len = 0 from by omega)]
  simp

theorem bio_decode_shape (d : Dialect) (hd : d.Sane) (len : Nat) :
    ∀ (ms : List Mention),
      (∀ (pos : Nat) (acc : List Mention), mentionsOK pos len ms = true → pos ≤ len →
        (foldSteps (Bio.step d) pos ⟨none, none, acc⟩ (bioShape d len pos ms) >>=
          decodeFinish len) = .ok (acc ++ ms)) ∧
      (∀ (pos s : Nat) (acc : List Mention) (c : Char) (cs : Str),
        mentionsOK pos len ms = true → pos ≤ len → s < pos →
        (foldSteps (Bio.step d) pos ⟨some s, some (c :: cs), acc⟩ (bioShape d len pos ms) >>=
          decodeFinish len) = .ok (acc ++ ⟨⟨s, pos⟩, c :: cs⟩ :: ms)) := by
  intro ms
  induction ms with
  | nil =>
    constructor
    · intro pos acc _ hle
      simp only [bioShape]
      rw [foldSteps_runs (Bio.step d) d.outside ⟨none, none, acc⟩
        (fun j => bio_step_O_closed d hd j acc) (len - pos) pos, except_bind_ok,
        decodeFinish_closed]
      simp
    · intro pos s acc c cs _ hle hs
      simp only [bioShape]
      rcases Nat.lt_or_ge pos len with hlt | hge
      · rw [show len - pos = (len - pos - 1) + 1 from by omega, List.replicate_succ]
        simp only [foldSteps]
        rw [bio_step_O_open d hd pos s (c :: cs) acc hs, except_bind_ok]
        rw [foldSteps_runs (Bio.step d) d.outside _
          (fun j => bio_step_O_closed d hd j _) (len - pos - 1) (pos + 1), except_bind_ok,
          decodeFinish_closed]
      · have hpos : pos = len := by omega
        subst hpos
        rw [Nat.sub_self]
        show (foldSteps (Bio.step d) pos ⟨some s, some (c :: cs), acc⟩ [] >>=
          decodeFinish pos) = _
        rw [show foldSteps (Bio.step d) pos ⟨some s, some (c :: cs), acc⟩ [] =
          .ok ⟨some s, some (c :: cs), acc⟩ from rfl, except_bind_ok,
          decodeFinish_open pos s (c :: cs) acc hs]
  | cons m ms ih =>
    obtain ⟨ihP, ihQ⟩ := ih
    rcases m with ⟨⟨mstart, mstop⟩, mt⟩
    have hP : ∀ (pos : Nat) (acc : List Mention),
        mentionsOK pos len (⟨⟨mstart, mstop⟩, mt⟩ :: ms) = true → pos ≤ len →
        (foldSteps (Bio.step d) pos ⟨none, none, acc⟩
            (bioShape d len pos (⟨⟨mstart, mstop⟩, mt⟩ :: ms)) >>= decodeFinish len) =
          .ok (acc ++ ⟨⟨mstart, mstop⟩, mt⟩ :: ms) := by
      intro pos acc h hle
      simp only [mentionsOK, Bool.and_eq_true, decide_eq_true_eq] at h
      obtain ⟨⟨⟨⟨h1, h2⟩, h3⟩, h4⟩, h5⟩ := h
      obtain ⟨c, cs, rfl⟩ := List.exists_cons_of_ne_nil h4
      simp only [bioShape]
      rw [foldSteps_append]
      rw [foldSteps_runs (Bio.step d) d.outside ⟨none, none, acc⟩
        (fun j => bio_step_O_closed d hd j acc) (mstart - pos) pos]
      simp only [except_bind_ok, List.length_replicate]
      rw [show pos + (mstart - pos) = mstart from by omega]
      simp only [foldSteps]
      rw [bio_step_B_closed d hd mstart acc c cs, except_bind_ok]
      rw [foldSteps_append]
      rw [foldSteps_runs (Bio.step d) (d.inside ++ d.label_delim :: c :: cs)
        ⟨some mstart, some (c :: cs), acc⟩
        (fun j => bio_step_I_open d hd j mstart acc c cs) (mstop - mstart - 1) (mstart + 1)]
      simp only [except_bind_ok, List.length_replicate]
      rw [show mstart + 1 + (mstop - mstart - 1) = mstop from by omega]
      exact ihQ mstop mstart acc c cs h5 h3 h2
    refine ⟨hP, ?_⟩
    intro pos s acc c cs h hle hs
    simp only [mentionsOK, Bool.and_eq_true, decide_eq_true_eq] at h
    obtain ⟨⟨⟨⟨h1, h2⟩, h3⟩, h4⟩, h5⟩ := h
    obtain ⟨c', cs', rfl⟩ := List.exists_cons_of_ne_nil h4
    rcases Nat.eq_or_lt_of_le h1 with heq | hlt
    · subst heq
      simp only [bioShape]
      rw [Nat.sub_self]
      simp only [List.replicate, List.nil_append]
      simp only [foldSteps]
      rw [bio_step_B_open d hd pos s (c :: cs) acc c' cs' hs, except_bind_ok]
      rw [foldSteps_append]
      generalize hacc2 : acc ++ [(⟨⟨s, pos⟩, c :: cs⟩ : Mention)] = acc2
      rw [foldSteps_runs (Bio.step d) (d.inside ++ d.label_delim :: c' :: cs')
        ⟨some pos, some (c' :: cs'), acc2⟩
        (fun j => bio_step_I_open d hd j pos acc2 c' cs') (mstop - pos - 1) (pos + 1)]
      simp only [except_bind_ok, List.length_replicate]
      rw [show pos + 1 + (mstop - pos - 1) = mstop from by omega]
      rw [ihQ mstop pos acc2 c' cs' h5 h3 h2]
      rw [← hacc2]
      simp
    · simp only [bioShape]
      rw [show mstart - pos = (mstart - (pos + 1)) + 1 from by omega, List.replicate_succ,
        List.cons_append]
      simp only [foldSteps]
      rw [bio_step_O_open d hd pos s (c :: cs) acc hs, except_bind_ok]
      have hm : mentionsOK (pos + 1) len (⟨⟨mstart, mstop⟩, c' :: cs'⟩ :: ms) = true := by
        simp only [mentionsOK, Bool.and_eq_true, decide_eq_true_eq]
        exact ⟨⟨⟨⟨by omega, h2⟩, h3⟩, by simp⟩, h5⟩
      have hrec := hP (pos + 1) (acc ++ [⟨⟨s, pos⟩, c :: cs⟩]) hm (by omega)
      simp only [bioShape] at hrec
      rw [hrec]
      simp

theorem bioShape_length (d : Dialect) (len : Nat) :
    ∀ (ms : List Mention) (pos : Nat), mentionsOK pos len ms = true → pos ≤ len →
      (bioShape d len pos ms).length = len - pos := by
  intro ms
  induction ms with
  | nil =>
    intro pos h hle
    simp [bioShape]
  | cons m ms ih =>
    intro pos h hle
    simp only [mentionsOK, Bool.and_eq_true, decide_eq_true_eq] at h
    obtain ⟨⟨⟨⟨h1, h2⟩, h3⟩, h4⟩, h5⟩ := h
    simp only [bioShape, List.length_append, List.length_cons, List.length_replicate]
    rw [ih m.span.stop h5 h3]
    omega

theorem bio_roundtrip (d : Dialect) (hd : d.Sane) (ms : List Mention) (len : Nat)
    (h : mentionsOK 0 len ms = true) :
    (Bio.encode_mentions d ms len).bind (Bio.decode_labels d) = .ok ms := by
  have h0 : mentionsOK ([] : List Str).length (([] : List Str).length + len) ms = true := by
    simpa using h
  have henc := bio_encode_shape d hd ms [] len h0
  simp only [List.nil_append, List.length_nil, Nat.zero_add] at henc
  unfold Bio.encode_mentions
  rw [henc]
  show Bio.decode_labels d (bioShape d len 0 ms) = .ok ms
  unfold Bio.decode_labels
  rw [bioShape_length d len ms 0 h (Nat.zero_le len), Nat.sub_zero]
  have hdec := (bio_decode_shape d hd len ms).1 0 [] h (Nat.zero_le len)
  rw [show MentionBuilder.init = (⟨none, none, []⟩ : MentionBuilder) from rfl]
  simpa using hdec

/-! ## IO round trip -/

/-- The exact output of `IO.encode_mentions`: every position of a mention
gets the inside label. -/
def ioShape (d : Dialect) (len : Nat) (pos : Nat) : List Mention → List Str
  | [] => List.replicate (len - pos) d.outside
  | m :: ms =>
    List.replicate (m.span.start - pos) d.outside ++
      (d.inside ++ d.label_delim :: m.type) ::
        (List.replicate (m.span.stop - m.span.start - 1) (d.inside ++ d.label_delim :: m.type) ++
          ioShape d len m.span.stop ms)

/-- No two consecutive mentions are adjacent with the same type (the
configurations IO cannot represent). -/
def noAdjMerge : List Mention → Bool
  | [] => true
  | [_] => true
  | m :: m' :: ms =>
    if m.span.stop = m'.span.start ∧ m.type = m'.type then false
    else noAdjMerge (m' :: ms)

theorem noAdj_tail {m : Mention} {ms : List Mention} (h : noAdjMerge (m :: ms) = true) :
    noAdjMerge ms = true := by
  cases ms with
  | nil => rfl
  | cons m' ms' =>
    by_cases hc : m.span.stop = m'.span.start ∧ m.type = m'.type
    · simp [noAdjMerge, hc] at h
    · simpa [noAdjMerge, hc] using h

theorem noAdj_head {m m' : Mention} {ms : List Mention}
    (h : noAdjMerge (m :: m' :: ms) = true) (hadj : m'.span.start = m.span.stop) :
    m'.type ≠ m.type := by
  intro hty
  simp [noAdjMerge, hadj.symm, hty] at h

theorem io_writeMention_shape (d : Dialect) (hd : d.Sane) (P : List Str) (g n r : Nat)
    (c : Char) (cs : Str) :
    Io.writeMention d (P ++ List.replicate (g + 1 + n + r) d.outside)
        ⟨⟨P.length + g, P.length + g + 1 + n⟩, c :: cs⟩ =
      .ok (P ++ (List.replicate g d.outside ++
        (d.inside ++ d.label_delim :: c :: cs) ::
          (List.replicate n (d.inside ++ d.label_delim :: c :: cs) ++
            List.replicate r d.outside))) := by
  unfold Io.writeMention
  dsimp only
  rw [join_label_some c cs hd.io_ne, except_bind_ok]
  have hrep : List.replicate (g + 1 + n + r) d.outside =
      List.replicate g d.outside ++ d.outside :: List.replicate (n + r) d.outside := by
    rw [← List.replicate_succ, ← List.replicate_add]
    congr 1
    omega
  rw [hrep]
  rw [show P ++ (List.replicate g d.outside ++
      d.outside :: List.replicate (n + r) d.outside) =
    (P ++ List.replicate g d.outside) ++
      d.outside :: List.replicate (n + r) d.outside from by simp]
  have hlen1 : P.length + g = (P ++ List.replicate g d.outside).length := by simp
  rw [hlen1, listSet_boundary]
  simp only [except_bind_ok]
  have hcnt : (P ++ List.replicate g d.outside).length + 1 + n -
      ((P ++ List.replicate g d.outside).length + 1) = n := by omega
  rw [hcnt]
  rw [show (P ++ List.replicate g d.outside) ++
      (d.inside ++ d.label_delim :: c :: cs) :: List.replicate (n + r) d.outside =
    ((P ++ List.replicate g d.outside) ++ [d.inside ++ d.label_delim :: c :: cs]) ++
      List.replicate (n + r) d.outside from by simp]
  have hlen2 : (P ++ List.replicate g d.outside).length + 1 =
      ((P ++ List.replicate g d.outside) ++ [d.inside ++ d.label_delim :: c :: cs]).length := by
    simp only [List.length_append, List.length_replicate, List.length_cons, List.length_nil]
  rw [hlen2]
  rw [fill_loop (d.inside ++ d.label_delim :: c :: cs) d.outside n
    ((P ++ List.replicate g d.outside) ++ [d.inside ++ d.label_delim :: c :: cs]) (n + r)
    (by omega)]
  simp

theorem io_encode_shape (d : Dialect) (hd : d.Sane) :
    ∀ (ms : List Mention) (P : List Str) (k : Nat),
      mentionsOK P.length (P.length + k) ms = true →
      List.foldlM (Io.writeMention d) (P ++ List.replicate k d.outside) ms =
        .ok (P ++ ioShape d (P.length + k) P.length ms) := by
  intro ms
  induction ms with
  | nil =>
    intro P k h
    rw [foldlM_nil_except]
    simp [ioShape]
  | cons m ms ih =>
    intro P k h
    simp only [mentionsOK, Bool.and_eq_true, decide_eq_true_eq] at h
    obtain ⟨⟨⟨⟨h1, h2⟩, h3⟩, h4⟩, h5⟩ := h
    obtain ⟨c, cs, hct⟩ := List.exists_cons_of_ne_nil h4
    obtain ⟨g, hg⟩ : ∃ g, m.span.start = P.length + g := ⟨m.span.start - P.length, by omega⟩
    obtain ⟨n, hn⟩ : ∃ n, m.span.stop = P.length + g + 1 + n :=
      ⟨m.span.stop - (P.length + g + 1), by omega⟩
    obtain ⟨r, hr⟩ : ∃ r, k = g + 1 + n + r := ⟨k - (g + 1 + n), by omega⟩
    rcases m with ⟨⟨mstart, mstop⟩, mt⟩
    dsimp only at hg hn hct h5
    subst hg hn hct hr
    rw [foldlM_cons_except, io_writeMention_shape d hd P g n r c cs, except_bind_ok]
    rw [show P ++ (List.replicate g d.outside ++
        (d.inside ++ d.label_delim :: c :: cs) ::
          (List.replicate n (d.inside ++ d.label_delim :: c :: cs) ++
            List.replicate r d.outside)) =
      (P ++ List.replicate g d.outside ++
        (d.inside ++ d.label_delim :: c :: cs) ::
          List.replicate n (d.inside ++ d.label_delim :: c :: cs)) ++
        List.replicate r d.outside from by simp]
    have hlenP : (P ++ List.replicate g d.outside ++
        (d.inside ++ d.label_delim :: c :: cs) ::
          List.replicate n (d.inside ++ d.label_delim :: c :: cs)).length =
        P.length + g + 1 + n := by
      simp only [List.length_append, List.length_replicate, List.length_cons]
      omega
    rw [ih _ r (by rw [hlenP]; rw [show P.length + g + 1 + n + r = P.length + (g + 1 + n + r)
      from by omega]; exact h5)]
    rw [hlenP]
    rw [show P.length + g + 1 + n + r = P.length + (g + 1 + n + r) from by omega]
    simp only [ioShape]
    rw [show P.length + g - P.length = g from by omega]
    rw [show P.length + g + 1 + n - (P.length + g) - 1 = n from by omega]
    simp

theorem ioShape_length (d : Dialect) (len : Nat) :
    ∀ (ms : List Mention) (pos : Nat), mentionsOK pos len ms = true → pos ≤ len →
      (ioShape d len pos ms).length = len - pos := by
  intro ms
  induction ms with
  | nil =>
    intro pos h hle
    simp [ioShape]
  | cons m ms ih =>
    intro pos h hle
    simp only [mentionsOK, Bool.and_eq_true, decide_eq_true_eq] at h
    obtain ⟨⟨⟨⟨h1, h2⟩, h3⟩, h4⟩, h5⟩ := h
    simp only [ioShape, List.length_append, List.length_cons, List.length_replicate]
    rw [ih m.span.stop h5 h3]
    omega

theorem io_step_O_closed (d : Dialect) (hd : d.Sane) (idx : Nat) (acc : List Mention) :
    Io.step d idx ⟨none, none, acc⟩ d.outside = .ok ⟨none, none, acc⟩ := by
  simp [Io.step, split_label_outside hd.delim_outside, MentionBuilder.in_mention,
    Ne.symm hd.io_ne]

theorem io_step_O_open (d : Dialect) (hd : d.Sane) (idx s : Nat) (t : Str)
    (acc : List Mention) (hs : s < idx) :
    Io.step d idx ⟨some s, some t, acc⟩ d.outside =
      .ok ⟨none, none, acc ++ [⟨⟨s, idx⟩, t⟩]⟩ := by
  simp [Io.step, split_label_outside hd.delim_outside, MentionBuilder.in_mention,
    MentionBuilder.end_mention, Ne.symm hd.io_ne, hs]
  omega

theorem io_step_I_closed (d : Dialect) (hd : d.Sane) (idx : Nat) (acc : List Mention)
    (c : Char) (cs : Str) :
    Io.step d idx ⟨none, none, acc⟩ (d.inside ++ d.label_delim :: c :: cs) =
      .ok ⟨some idx, some (c :: cs), acc⟩ := by
  simp [Io.step, split_label_joined (c :: cs) hd.delim_inside hd.io_ne,
    MentionBuilder.in_mention, MentionBuilder.start_mention]

theorem io_step_I_open_same (d : Dialect) (hd : d.Sane) (idx s : Nat)
    (acc : List Mention) (c : Char) (cs : Str) :
    Io.step d idx ⟨some s, some (c :: cs), acc⟩ (d.inside ++ d.label_delim :: c :: cs) =
      .ok ⟨some s, some (c :: cs), acc⟩ := by
  simp [Io.step, split_label_joined (c :: cs) hd.delim_inside hd.io_ne,
    MentionBuilder.in_mention]

theorem io_step_I_open_diff (d : Dialect) (hd : d.Sane) (idx s : Nat) (t : Str)
    (acc : List Mention) (c : Char) (cs : Str) (htne : c :: cs ≠ t) (hs : s < idx) :
    Io.step d idx ⟨some s, some t, acc⟩ (d.inside ++ d.label_delim :: c :: cs) =
      .ok ⟨some idx, some (c :: cs), acc ++ [⟨⟨s, idx⟩, t⟩]⟩ := by
  simp [Io.step, split_label_joined (c :: cs) hd.delim_inside hd.io_ne,
    MentionBuilder.in_mention, MentionBuilder.end_mention, MentionBuilder.start_mention,
    htne, hs]
  rw [if_neg (show ¬ idx = 0 from by omega)]
  simp

theorem io_decode_shape (d : Dialect) (hd : d.Sane) (len : Nat) :
    ∀ (ms : List Mention),
      (∀ (pos : Nat) (acc : List Mention),
        mentionsOK pos len ms = true → noAdjMerge ms = true → pos ≤ len →
        (foldSteps (Io.step d) pos ⟨none, none, acc⟩ (ioShape d len pos ms) >>=
          decodeFinish len) = .ok (acc ++ ms)) ∧
      (∀ (pos s : Nat) (acc : List Mention) (c : Char) (cs : Str),
        mentionsOK pos len ms = true → noAdjMerge ms = true → pos ≤ len → s < pos →
        (∀ m' ms', ms = m' :: ms' → m'.span.start = pos → m'.type ≠ c :: cs) →
        (foldSteps (Io.step d) pos ⟨some s, some (c :: cs), acc⟩ (ioShape d len pos ms) >>=
          decodeFinish len) = .ok (acc ++ ⟨⟨s, pos⟩, c :: cs⟩ :: ms)) := by
  intro ms
  induction ms with
  | nil =>
    constructor
    · intro pos acc _ _ hle
      simp only [ioShape]
      rw [foldSteps_runs (Io.step d) d.outside ⟨none, none, acc⟩
        (fun j => io_step_O_closed d hd j acc) (len - pos) pos, except_bind_ok,
        decodeFinish_closed]
      simp
    · intro pos s acc c cs _ _ hle hs _
      simp only [ioShape]
      rcases Nat.lt_or_ge pos len with hlt | hge
      · rw [show len - pos = (len - pos - 1) + 1 from by omega, List.replicate_succ]
        simp only [foldSteps]
        rw [io_step_O_open d hd pos s (c :: cs) acc hs, except_bind_ok]
        rw [foldSteps_runs (Io.step d) d.outside _
          (fun j => io_step_O_closed d hd j _) (len - pos - 1) (pos + 1), except_bind_ok,
          decodeFinish_closed]
      · have hpos : pos = len := by omega
        subst hpos
        rw [Nat.sub_self]
        show (foldSteps (Io.step d) pos ⟨some s, some (c :: cs), acc⟩ [] >>=
          decodeFinish pos) = _
        rw [show foldSteps (Io.step d) pos ⟨some s, some (c :: cs), acc⟩ [] =
          .ok ⟨some s, some (c :: cs), acc⟩ from rfl, except_bind_ok,
          decodeFinish_open pos s (c :: cs) acc hs]
  | cons m ms ih =>
    obtain ⟨ihP, ihQ⟩ := ih
    rcases m with ⟨⟨mstart, mstop⟩, mt⟩
    have hP : ∀ (pos : Nat) (acc : List Mention),
        mentionsOK pos len (⟨⟨mstart, mstop⟩, mt⟩ :: ms) = true →
        noAdjMerge (⟨⟨mstart, mstop⟩, mt⟩ :: ms) = true → pos ≤ len →
        (foldSteps (Io.step d) pos ⟨none, none, acc⟩
            (ioShape d len pos (⟨⟨mstart, mstop⟩, mt⟩ :: ms)) >>= decodeFinish len) =
          .ok (acc ++ ⟨⟨mstart, mstop⟩, mt⟩ :: ms) := by
      intro pos acc h hadj hle
      simp only [mentionsOK, Bool.and_eq_true, decide_eq_true_eq] at h
      obtain ⟨⟨⟨⟨h1, h2⟩, h3⟩, h4⟩, h5⟩ := h
      obtain ⟨c, cs, rfl⟩ := List.exists_cons_of_ne_nil h4
      simp only [ioShape]
      rw [foldSteps_append]
      rw [foldSteps_runs (Io.step d) d.outside ⟨none, none, acc⟩
        (fun j => io_step_O_closed d hd j acc) (mstart - pos) pos]
      simp only [except_bind_ok, List.length_replicate]
      rw [show pos + (mstart - pos) = mstart from by omega]
      simp only [foldSteps]
      rw [io_step_I_closed d hd mstart acc c cs, except_bind_ok]
      rw [foldSteps_append]
      rw [foldSteps_runs (Io.step d) (d.inside ++ d.label_delim :: c :: cs)
        ⟨some mstart, some (c :: cs), acc⟩
        (fun j => io_step_I_open_same d hd j mstart acc c cs) (mstop - mstart - 1) (mstart + 1)]
      simp only [except_bind_ok, List.length_replicate]
      rw [show mstart + 1 + (mstop - mstart - 1) = mstop from by omega]
      refine ihQ mstop mstart acc c cs h5 (noAdj_tail hadj) h3 h2 ?_
      intro m' ms' hms hstart
      exact noAdj_head (hms ▸ hadj) (by rw [hstart])
    refine ⟨hP, ?_⟩
    intro pos s acc c cs h hadj hle hs hhead
    simp only [mentionsOK, Bool.and_eq_true, decide_eq_true_eq] at h
    obtain ⟨⟨⟨⟨h1, h2⟩, h3⟩, h4⟩, h5⟩ := h
    obtain ⟨c', cs', hct⟩ := List.exists_cons_of_ne_nil h4
    rcases Nat.eq_or_lt_of_le h1 with heq | hlt
    · have htne : mt ≠ c :: cs := hhead ⟨⟨mstart, mstop⟩, mt⟩ ms rfl heq.symm
      subst hct
      subst heq
      simp only [ioShape]
      rw [Nat.sub_self]
      simp only [List.replicate, List.nil_append]
      simp only [foldSteps]
      rw [io_step_I_open_diff d hd pos s (c :: cs) acc c' cs' htne hs, except_bind_ok]
      rw [foldSteps_append]
      generalize hacc2 : acc ++ [(⟨⟨s, pos⟩, c :: cs⟩ : Mention)] = acc2
      rw [foldSteps_runs (Io.step d) (d.inside ++ d.label_delim :: c' :: cs')
        ⟨some pos, some (c' :: cs'), acc2⟩
        (fun j => io_step_I_open_same d hd j pos acc2 c' cs') (mstop - pos - 1) (pos + 1)]
      simp only [except_bind_ok, List.length_replicate]
      rw [show pos + 1 + (mstop - pos - 1) = mstop from by omega]
      rw [ihQ mstop pos acc2 c' cs' h5 (noAdj_tail hadj) h3 h2 ?_]
      · rw [← hacc2]
        simp
      · intro m' ms' hms hstart
        exact noAdj_head (hms ▸ hadj) (by rw [hstart])
    · simp only [ioShape]
      rw [show mstart - pos = (mstart - (pos + 1)) + 1 from by omega, List.replicate_succ,
        List.cons_append]
      simp only [foldSteps]
      rw [io_step_O_open d hd pos s (c :: cs) acc hs, except_bind_ok]
      have hm : mentionsOK (pos + 1) len (⟨⟨mstart, mstop⟩, mt⟩ :: ms) = true := by
        simp only [mentionsOK, Bool.and_eq_true, decide_eq_true_eq]
        exact ⟨⟨⟨⟨by omega, h2⟩, h3⟩, h4⟩, h5⟩
      have hrec := hP (pos + 1) (acc ++ [⟨⟨s, pos⟩, c :: cs⟩]) hm hadj (by omega)
      simp only [ioShape] at hrec
      rw [hrec]
      simp

theorem io_roundtrip (d : Dialect) (hd : d.Sane) (ms : List Mention) (len : Nat)
    (h : mentionsOK 0 len ms = true) (hadj : noAdjMerge ms = true) :
    (Io.encode_mentions d ms len).bind (Io.decode_labels d) = .ok ms := by
  have h0 : mentionsOK ([] : List Str).length (([] : List Str).length + len) ms = true := by
    simpa using h
  have henc := io_encode_shape d hd ms [] len h0
  simp only [List.nil_append, List.length_nil, Nat.zero_add] at henc
  unfold Io.encode_mentions
  rw [henc]
  show Io.decode_labels d (ioShape d len 0 ms) = .ok ms
  unfold Io.decode_labels
  rw [ioShape_length d len ms 0 h (Nat.zero_le len), Nat.sub_zero]
  have hdec := (io_decode_shape d hd len ms).1 0 [] h hadj (Nat.zero_le len)
  rw [show MentionBuilder.init = (⟨none, none, []⟩ : MentionBuilder) from rfl]
  simpa using hdec

/-! ## IOB round trip -/

/-- The exact output of `IOB.encode_mentions`: the first token of a
mention is labelled begin exactly when the mention is adjacent to and of
the same type as the previous mention (tracked through
`last_end`/`last_type`). -/
def iobShape (d : Dialect) (len : Nat) (pos : Nat) (last_end : Option Nat)
    (last_type : Option Str) : List Mention → List Str
  | [] => List.replicate (len - pos) d.outside
  | m :: ms =>
    List.replicate (m.span.start - pos) d.outside ++
      ((if some m.span.start = last_end ∧ some m.type = last_type then d.begin else d.inside) ++
        d.label_delim :: m.type) ::
        (List.replicate (m.span.stop - m.span.start - 1) (d.inside ++ d.label_delim :: m.type) ++
          iobShape d len m.span.stop (some m.span.stop) (some m.type) ms)

/-- The `(last_end, last_type)` pair after `IOB.encode_mentions`'s loop. -/
def iobLast (le : Option Nat) (lt : Option Str) : List Mention → Option Nat × Option Str
  | [] => (le, lt)
  | m :: ms => iobLast (some m.span.stop) (some m.type) ms

theorem iob_writeMention_shape (d : Dialect) (hd : d.Sane) (P : List Str) (g n r : Nat)
    (c : Char) (cs : Str) (le : Option Nat) (lt : Option Str) :
    Iob.writeMention d (P ++ List.replicate (g + 1 + n + r) d.outside, le, lt)
        ⟨⟨P.length + g, P.length + g + 1 + n⟩, c :: cs⟩ =
      .ok (P ++ (List.replicate g d.outside ++
        ((if some (P.length + g) = le ∧ some (c :: cs) = lt then d.begin else d.inside) ++
          d.label_delim :: c :: cs) ::
          (List.replicate n (d.inside ++ d.label_delim :: c :: cs) ++
            List.replicate r d.outside)),
        some (P.length + g + 1 + n), some (c :: cs)) := by
  unfold Iob.writeMention
  dsimp only
  have hjoin : join_label d
      (if some (P.length + g) = le ∧ some (c :: cs) = lt then d.begin else d.inside)
      (some (c :: cs)) =
      .ok ((if some (P.length + g) = le ∧ some (c :: cs) = lt then d.begin else d.inside) ++
        d.label_delim :: c :: cs) := by
    by_cases hc : some (P.length + g) = le ∧ some (c :: cs) = lt
    · simp only [if_pos hc]
      exact join_label_some c cs hd.bo
    · simp only [if_neg hc]
      exact join_label_some c cs hd.io_ne
  rw [hjoin, except_bind_ok]
  rw [join_label_some c cs hd.io_ne]
  have hrep : List.replicate (g + 1 + n + r) d.outside =
      List.replicate g d.outside ++ d.outside :: List.replicate (n + r) d.outside := by
    rw [← List.replicate_succ, ← List.replicate_add]
    congr 1
    omega
  rw [hrep]
  rw [show P ++ (List.replicate g d.outside ++
      d.outside :: List.replicate (n + r) d.outside) =
    (P ++ List.replicate g d.outside) ++
      d.outside :: List.replicate (n + r) d.outside from by simp]
  have hlen1 : P.length + g = (P ++ List.replicate g d.outside).length := by simp
  rw [hlen1, listSet_boundary]
  simp only [except_bind_ok]
  have hcnt : (P ++ List.replicate g d.outside).length + 1 + n -
      ((P ++ List.replicate g d.outside).length + 1) = n := by omega
  rw [hcnt]
  rw [show (P ++ List.replicate g d.outside) ++
      ((if some ((P ++ List.replicate g d.outside).length) = le ∧ some (c :: cs) = lt
          then d.begin else d.inside) ++
        d.label_delim :: c :: cs) :: List.replicate (n + r) d.outside =
    ((P ++ List.replicate g d.outside) ++
      [(if some ((P ++ List.replicate g d.outside).length) = le ∧ some (c :: cs) = lt
          then d.begin else d.inside) ++
        d.label_delim :: c :: cs]) ++
      List.replicate (n + r) d.outside from by simp]
  have hlen2 : (P ++ List.replicate g d.outside).length + 1 =
      ((P ++ List.replicate g d.outside) ++
        [(if some ((P ++ List.replicate g d.outside).length) = le ∧ some (c :: cs) = lt
            then d.begin else d.inside) ++
          d.label_delim :: c :: cs]).length := by
    simp only [List.length_append, List.length_replicate, List.length_cons, List.length_nil]
  rw [hlen2]
  rw [fill_loop (d.inside ++ d.label_delim :: c :: cs) d.outside n
    ((P ++ List.replicate g d.outside) ++
      [(if some ((P ++ List.replicate g d.outside).length) = le ∧ some (c :: cs) = lt
          then d.begin else d.inside) ++
        d.label_delim :: c :: cs]) (n + r)
    (by omega)]
  simp

theorem iob_encode_shape (d : Dialect) (hd : d.Sane) :
    ∀ (ms : List Mention) (P : List Str) (k : Nat) (le : Option Nat) (lt : Option Str),
      mentionsOK P.length (P.length + k) ms = true →
      List.foldlM (Iob.writeMention d) (P ++ List.replicate k d.outside, le, lt) ms =
        .ok (P ++ iobShape d (P.length + k) P.length le lt ms,
          (iobLast le lt ms).1, (iobLast le lt ms).2) := by
  intro ms
  induction ms with
  | nil =>
    intro P k le lt h
    rw [foldlM_nil_except]
    simp [iobShape, iobLast]
  | cons m ms ih =>
    intro P k le lt h
    simp only [mentionsOK, Bool.and_eq_true, decide_eq_true_eq] at h
    obtain ⟨⟨⟨⟨h1, h2⟩, h3⟩, h4⟩, h5⟩ := h
    obtain ⟨c, cs, hct⟩ := List.exists_cons_of_ne_nil h4
    obtain ⟨g, hg⟩ : ∃ g, m.span.start = P.length + g := ⟨m.span.start - P.length, by omega⟩
    obtain ⟨n, hn⟩ : ∃ n, m.span.stop = P.length + g + 1 + n :=
      ⟨m.span.stop - (P.length + g + 1), by omega⟩
    obtain ⟨r, hr⟩ : ∃ r, k = g + 1 + n + r := ⟨k - (g + 1 + n), by omega⟩
    rcases m with ⟨⟨mstart, mstop⟩, mt⟩
    dsimp only at hg hn hct h5
    subst hg hn hct hr
    rw [foldlM_cons_except, iob_writeMention_shape d hd P g n r c cs le lt, except_bind_ok]
    rw [show P ++ (List.replicate g d.outside ++
        ((if some (P.length + g) = le ∧ some (c :: cs) = lt then d.begin else d.inside) ++
          d.label_delim :: c :: cs) ::
          (List.replicate n (d.inside ++ d.label_delim :: c :: cs) ++
            List.replicate r d.outside)) =
      (P ++ List.replicate g d.outside ++
        ((if some (P.length + g) = le ∧ some (c :: cs) = lt then d.begin else d.inside) ++
          d.label_delim :: c :: cs) ::
          List.replicate n (d.inside ++ d.label_delim :: c :: cs)) ++
        List.replicate r d.outside from by simp]
    have hlenP : (P ++ List.replicate g d.outside ++
        ((if some (P.length + g) = le ∧ some (c :: cs) = lt then d.begin else d.inside) ++
          d.label_delim :: c :: cs) ::
          List.replicate n (d.inside ++ d.label_delim :: c :: cs)).length =
        P.length + g + 1 + n := by
      simp only [List.length_append, List.length_replicate, List.length_cons]
      omega
    rw [ih _ r (some (P.length + g + 1 + n)) (some (c :: cs))
      (by rw [hlenP]; rw [show P.length + g + 1 + n + r = P.length + (g + 1 + n + r)
        from by omega]; exact h5)]
    rw [hlenP]
    rw [show P.length + g + 1 + n + r = P.length + (g + 1 + n + r) from by omega]
    simp only [iobShape, iobLast]
    rw [show P.length + g - P.length = g from by omega]
    rw [show P.length + g + 1 + n - (P.length + g) - 1 = n from by omega]
    simp

theorem iobShape_length (d : Dialect) (len : Nat) :
    ∀ (ms : List Mention) (pos : Nat) (le : Option Nat) (lt : Option Str),
      mentionsOK pos len ms = true → pos ≤ len →
      (iobShape d len pos le lt ms).length = len - pos := by
  intro ms
  induction ms with
  | nil =>
    intro pos le lt h hle
    simp [iobShape]
  | cons m ms ih =>
    intro pos le lt h hle
    simp only [mentionsOK, Bool.and_eq_true, decide_eq_true_eq] at h
    obtain ⟨⟨⟨⟨h1, h2⟩, h3⟩, h4⟩, h5⟩ := h
    simp only [iobShape, List.length_append, List.length_cons, List.length_replicate]
    rw [ih m.span.stop (some m.span.stop) (some m.type) h5 h3]
    omega

theorem iob_step_O_closed (d : Dialect) (hd : d.Sane) (idx : Nat) (acc : List Mention) :
    Iob.step d idx ⟨none, none, acc⟩ d.outside = .ok ⟨none, none, acc⟩ := by
  simp [Iob.step, split_label_outside hd.delim_outside, MentionBuilder.in_mention,
    Ne.symm hd.bo, Ne.symm hd.io_ne]

theorem iob_step_O_open (d : Dialect) (hd : d.Sane) (idx s : Nat) (t : Str)
    (acc : List Mention) (hs : s < idx) :
    Iob.step d idx ⟨some s, some t, acc⟩ d.outside =
      .ok ⟨none, none, acc ++ [⟨⟨s, idx⟩, t⟩]⟩ := by
  simp [Iob.step, split_label_outside hd.delim_outside, MentionBuilder.in_mention,
    MentionBuilder.end_mention, Ne.symm hd.bo, Ne.symm hd.io_ne, hs]
  omega

theorem iob_step_I_closed (d : Dialect) (hd : d.Sane) (idx : Nat) (acc : List Mention)
    (c : Char) (cs : Str) :
    Iob.step d idx ⟨none, none, acc⟩ (d.inside ++ d.label_delim :: c :: cs) =
      .ok ⟨some idx, some (c :: cs), acc⟩ := by
  simp [Iob.step, split_label_joined (c :: cs) hd.delim_inside hd.io_ne,
    MentionBuilder.in_mention, MentionBuilder.start_mention, Ne.symm hd.bi]

theorem iob_step_I_open_same (d : Dialect) (hd : d.Sane) (idx s : Nat)
    (acc : List Mention) (c : Char) (cs : Str) :
    Iob.step d idx ⟨some s, some (c :: cs), acc⟩ (d.inside ++ d.label_delim :: c :: cs) =
      .ok ⟨some s, some (c :: cs), acc⟩ := by
  simp [Iob.step, split_label_joined (c :: cs) hd.delim_inside hd.io_ne,
    MentionBuilder.in_mention, Ne.symm hd.bi]

theorem iob_step_I_open_diff (d : Dialect) (hd : d.Sane) (idx s : Nat) (t : Str)
    (acc : List Mention) (c : Char) (cs : Str) (htne : c :: cs ≠ t) (hs : s < idx) :
    Iob.step d idx ⟨some s, some t, acc⟩ (d.inside ++ d.label_delim :: c :: cs) =
      .ok ⟨some idx, some (c :: cs), acc ++ [⟨⟨s, idx⟩, t⟩]⟩ := by
  simp [Iob.step, split_label_joined (c :: cs) hd.delim_inside hd.io_ne,
    MentionBuilder.in_mention, MentionBuilder.end_mention, MentionBuilder.start_mention,
    Ne.symm hd.bi, htne, hs]
  rw [if_neg (show ¬ idx = 0 from by omega)]
  simp

theorem iob_step_B_open_same (d : Dialect) (hd : d.Sane) (idx s : Nat)
    (acc : List Mention) (c : Char) (cs : Str) (hs : s < idx) :
    Iob.step d idx ⟨some s, some (c :: cs), acc⟩ (d.begin ++ d.label_delim :: c :: cs) =
      .ok ⟨some idx, some (c :: cs), acc ++ [⟨⟨s, idx⟩, c :: cs⟩]⟩ := by
  simp [Iob.step, split_label_joined (c :: cs) hd.delim_begin hd.bo,
    MentionBuilder.in_mention, MentionBuilder.end_mention, MentionBuilder.start_mention, hs]
  rw [if_neg (show ¬ idx = 0 from by omega)]
  simp

theorem iob_decode_shape (d : Dialect) (hd : d.Sane) (len : Nat) :
    ∀ (ms : List Mention),
      (∀ (pos : Nat) (acc : List Mention) (le : Option Nat) (lt : Option Str),
        mentionsOK pos len ms = true → pos ≤ len → (∀ q, le = some q → q < pos) →
        (foldSteps (Iob.step d) pos ⟨none, none, acc⟩ (iobShape d len pos le lt ms) >>=
          decodeFinish len) = .ok (acc ++ ms)) ∧
      (∀ (pos s : Nat) (acc : List Mention) (c : Char) (cs : Str),
        mentionsOK pos len ms = true → pos ≤ len → s < pos →
        (foldSteps (Iob.step d) pos ⟨some s, some (c :: cs), acc⟩
            (iobShape d len pos (some pos) (some (c :: cs)) ms) >>=
          decodeFinish len) = .ok (acc ++ ⟨⟨s, pos⟩, c :: cs⟩ :: ms)) := by
  intro ms
  induction ms with
  | nil =>
    constructor
    · intro pos acc le lt _ hle _
      simp only [iobShape]
      rw [foldSteps_runs (Iob.step d) d.outside ⟨none, none, acc⟩
        (fun j => iob_step_O_closed d hd j acc) (len - pos) pos, except_bind_ok,
        decodeFinish_closed]
      simp
    · intro pos s acc c cs _ hle hs
      simp only [iobShape]
      rcases Nat.lt_or_ge pos len with hlt | hge
      · rw [show len - pos = (len - pos - 1) + 1 from by omega, List.replicate_succ]
        simp only [foldSteps]
        rw [iob_step_O_open d hd pos s (c :: cs) acc hs, except_bind_ok]
        rw [foldSteps_runs (Iob.step d) d.outside _
          (fun j => iob_step_O_closed d hd j _) (len - pos - 1) (pos + 1), except_bind_ok,
          decodeFinish_closed]
      · have hpos : pos = len := by omega
        subst hpos
        rw [Nat.sub_self]
        show (foldSteps (Iob.step d) pos ⟨some s, some (c :: cs), acc⟩ [] >>=
          decodeFinish pos) = _
        rw [show foldSteps (Iob.step d) pos ⟨some s, some (c :: cs), acc⟩ [] =
          .ok ⟨some s, some (c :: cs), acc⟩ from rfl, except_bind_ok,
          decodeFinish_open pos s (c :: cs) acc hs]
  | cons m ms ih =>
    obtain ⟨ihP, ihQ⟩ := ih
    rcases m with ⟨⟨mstart, mstop⟩, mt⟩
    have hP : ∀ (pos : Nat) (acc : List Mention) (le : Option Nat) (lt : Option Str),
        mentionsOK pos len (⟨⟨mstart, mstop⟩, mt⟩ :: ms) = true → pos ≤ len →
        (∀ q, le = some q → q < pos) →
        (foldSteps (Iob.step d) pos ⟨none, none, acc⟩
            (iobShape d len pos le lt (⟨⟨mstart, mstop⟩, mt⟩ :: ms)) >>= decodeFinish len) =
          .ok (acc ++ ⟨⟨mstart, mstop⟩, mt⟩ :: ms) := by
      intro pos acc le lt h hle hq
      simp only [mentionsOK, Bool.and_eq_true, decide_eq_true_eq] at h
      obtain ⟨⟨⟨⟨h1, h2⟩, h3⟩, h4⟩, h5⟩ := h
      obtain ⟨c, cs, rfl⟩ := List.exists_cons_of_ne_nil h4
      simp only [iobShape]
      have hcond : ¬ (some mstart = le ∧ some (c :: cs) = lt) := by
        rintro ⟨hc1, -⟩
        rcases le with - | q
        · exact Option.noConfusion hc1
        · have := hq q rfl
          have : mstart = q := Option.some_inj.mp hc1
          omega
      rw [if_neg hcond]
      rw [foldSteps_append]
      rw [foldSteps_runs (Iob.step d) d.outside ⟨none, none, acc⟩
        (fun j => iob_step_O_closed d hd j acc) (mstart - pos) pos]
      simp only [except_bind_ok, List.length_replicate]
      rw [show pos + (mstart - pos) = mstart from by omega]
      simp only [foldSteps]
      rw [iob_step_I_closed d hd mstart acc c cs, except_bind_ok]
      rw [foldSteps_append]
      rw [foldSteps_runs (Iob.step d) (d.inside ++ d.label_delim :: c :: cs)
        ⟨some mstart, some (c :: cs), acc⟩
        (fun j => iob_step_I_open_same d hd j mstart acc c cs) (mstop - mstart - 1) (mstart + 1)]
      simp only [except_bind_ok, List.length_replicate]
      rw [show mstart + 1 + (mstop - mstart - 1) = mstop from by omega]
      exact ihQ mstop mstart acc c cs h5 h3 h2
    refine ⟨hP, ?_⟩
    intro pos s acc c cs h hle hs
    simp only [mentionsOK, Bool.and_eq_true, decide_eq_true_eq] at h
    obtain ⟨⟨⟨⟨h1, h2⟩, h3⟩, h4⟩, h5⟩ := h
    obtain ⟨c', cs', hct⟩ := List.exists_cons_of_ne_nil h4
    rcases Nat.eq_or_lt_of_le h1 with heq | hlt
    · subst heq
      by_cases hty : mt = c :: cs
      · subst hty
        simp only [iobShape]
        rw [if_pos (by constructor <;> trivial), Nat.sub_self]
        simp only [List.replicate, List.nil_append]
        simp only [foldSteps]
        rw [iob_step_B_open_same d hd pos s acc c cs hs, except_bind_ok]
        rw [foldSteps_append]
        generalize hacc2 : acc ++ [(⟨⟨s, pos⟩, c :: cs⟩ : Mention)] = acc2
        rw [foldSteps_runs (Iob.step d) (d.inside ++ d.label_delim :: c :: cs)
          ⟨some pos, some (c :: cs), acc2⟩
          (fun j => iob_step_I_open_same d hd j pos acc2 c cs) (mstop - pos - 1) (pos + 1)]
        simp only [except_bind_ok, List.length_replicate]
        rw [show pos + 1 + (mstop - pos - 1) = mstop from by omega]
        rw [ihQ mstop pos acc2 c cs h5 h3 h2]
        rw [← hacc2]
        simp
      · subst hct
        simp only [iobShape]
        rw [if_neg (by rintro ⟨-, hc2⟩; exact hty (Option.some_inj.mp hc2)), Nat.sub_self]
        simp only [List.replicate, List.nil_append]
        simp only [foldSteps]
        rw [iob_step_I_open_diff d hd pos s (c :: cs) acc c' cs' hty hs, except_bind_ok]
        rw [foldSteps_append]
        generalize hacc2 : acc ++ [(⟨⟨s, pos⟩, c :: cs⟩ : Mention)] = acc2
        rw [foldSteps_runs (Iob.step d) (d.inside ++ d.label_delim :: c' :: cs')
          ⟨some pos, some (c' :: cs'), acc2⟩
          (fun j => iob_step_I_open_same d hd j pos acc2 c' cs') (mstop - pos - 1) (pos + 1)]
        simp only [except_bind_ok, List.length_replicate]
        rw [show pos + 1 + (mstop - pos - 1) = mstop from by omega]
        rw [ihQ mstop pos acc2 c' cs' h5 h3 h2]
        rw [← hacc2]
        simp
    · subst hct
      simp only [iobShape]
      rw [show mstart - pos = (mstart - (pos + 1)) + 1 from by omega, List.replicate_succ,
        List.cons_append]
      simp only [foldSteps]
      rw [iob_step_O_open d hd pos s (c :: cs) acc hs, except_bind_ok]
      have hm : mentionsOK (pos + 1) len (⟨⟨mstart, mstop⟩, c' :: cs'⟩ :: ms) = true := by
        simp only [mentionsOK, Bool.and_eq_true, decide_eq_true_eq]
        exact ⟨⟨⟨⟨by omega, h2⟩, h3⟩, by simp⟩, h5⟩
      have hrec := hP (pos + 1) (acc ++ [⟨⟨s, pos⟩, c :: cs⟩]) (some pos) (some (c :: cs))
        hm (by omega) (by rintro q hq; cases Option.some_inj.mp hq; omega)
      simp only [iobShape] at hrec
      rw [hrec]
      simp

theorem iob_roundtrip (d : Dialect) (hd : d.Sane) (ms : List Mention) (len : Nat)
    (h : mentionsOK 0 len ms = true) :
    (Iob.encode_mentions d ms len).bind (Iob.decode_labels d) = .ok ms := by
  have h0 : mentionsOK ([] : List Str).length (([] : List Str).length + len) ms = true := by
    simpa using h
  have henc := iob_encode_shape d hd ms [] len none none h0
  simp only [List.nil_append, List.length_nil, Nat.zero_add] at henc
  unfold Iob.encode_mentions
  rw [henc, except_bind_ok]
  show Iob.decode_labels d (iobShape d len 0 none none ms) = .ok ms
  unfold Iob.decode_labels
  rw [iobShape_length d len ms 0 none none h (Nat.zero_le len), Nat.sub_zero]
  have hdec := (iob_decode_shape d hd len ms).1 0 [] none none h (Nat.zero_le len)
    (by rintro q hq; exact Option.noConfusion hq)
  rw [show MentionBuilder.init = (⟨none, none, []⟩ : MentionBuilder) from rfl]
  simpa using hdec

/-! ## BIOES round trip -/

/-- The exact output of `BIOES.encode_mentions`: singleton mentions get
the single symbol, longer ones begin/inside/end. -/
def bioesShape (d : Dialect) (len : Nat) (pos : Nat) : List Mention → List Str
  | [] => List.replicate (len - pos) d.outside
  | m :: ms =>
    List.replicate (m.span.start - pos) d.outside ++
      (if m.span.stop - m.span.start = 1 then
        (d.single ++ d.label_delim :: m.type) :: bioesShape d len m.span.stop ms
      else
        (d.begin ++ d.label_delim :: m.type) ::
          (List.replicate (m.span.stop - m.span.start - 2)
              (d.inside ++ d.label_delim :: m.type) ++
            (d.ends ++ d.label_delim :: m.type) :: bioesShape d len m.span.stop ms))

theorem bioes_fill (d : Dialect) (hd : d.Sane) (stop : Nat) (c : Char) (cs : Str) :
    ∀ (n : Nat) (U : List Str) (r : Nat), U.length + n + 1 = stop →
      (List.range' U.length (n + 1)).foldlM
          (fun A idx => do
            let state := if idx = stop - 1 then d.ends else d.inside
            let lab ← join_label d state (some (c :: cs))
            listSet A idx lab)
          (U ++ List.replicate (n + 1 + r) d.outside) =
        .ok (U ++ (List.replicate n (d.inside ++ d.label_delim :: c :: cs) ++
          (d.ends ++ d.label_delim :: c :: cs) :: List.replicate r d.outside)) := by
  intro n
  induction n with
  | zero =>
    intro U r hstop
    rw [List.range'_succ U.length 0 1]
    simp only [List.range', foldlM_cons_except]
    rw [if_pos (by omega)]
    rw [join_label_some c cs (Ne.symm hd.oe), except_bind_ok]
    rw [show List.replicate (0 + 1 + r) d.outside = d.outside :: List.replicate r d.outside
      from by rw [show 0 + 1 + r = r + 1 from by omega]; rfl]
    rw [listSet_boundary, except_bind_ok, foldlM_nil_except]
    simp
  | succ n ih =>
    intro U r hstop
    rw [List.range'_succ U.length (n + 1) 1]
    simp only [foldlM_cons_except]
    rw [if_neg (by omega)]
    rw [join_label_some c cs hd.io_ne, except_bind_ok]
    rw [show List.replicate (n + 1 + 1 + r) d.outside =
      d.outside :: List.replicate (n + 1 + r) d.outside from by
        rw [show n + 1 + 1 + r = (n + 1 + r) + 1 from by omega]; rfl]
    rw [listSet_boundary, except_bind_ok]
    rw [show U ++ (d.inside ++ d.label_delim :: c :: cs) :: List.replicate (n + 1 + r) d.outside =
      (U ++ [d.inside ++ d.label_delim :: c :: cs]) ++ List.replicate (n + 1 + r) d.outside
      from by simp]
    rw [show U.length + 1 = (U ++ [d.inside ++ d.label_delim :: c :: cs]).length from by simp]
    rw [ih (U ++ [d.inside ++ d.label_delim :: c :: cs]) r (by simp; omega)]
    simp [List.replicate_succ]

theorem Bioes.writeMention_single_shape (d : Dialect) (hd : d.Sane) (P : List Str)
    (g r : Nat) (c : Char) (cs : Str) :
    Bioes.writeMention d (P ++ List.replicate (g + 1 + r) d.outside)
        ⟨⟨P.length + g, P.length + g + 1⟩, c :: cs⟩ =
      .ok (P ++ (List.replicate g d.outside ++
        (d.single ++ d.label_delim :: c :: cs) :: List.replicate r d.outside)) := by
  unfold Bioes.writeMention
  dsimp only
  rw [if_pos (by omega)]
  rw [join_label_some c cs (Ne.symm hd.os), except_bind_ok]
  rw [show List.replicate (g + 1 + r) d.outside =
    List.replicate g d.outside ++ d.outside :: List.replicate r d.outside from by
      rw [← List.replicate_succ, ← List.replicate_add]; congr 1; omega]
  rw [show P ++ (List.replicate g d.outside ++ d.outside :: List.replicate r d.outside) =
    (P ++ List.replicate g d.outside) ++ d.outside :: List.replicate r d.outside from by simp]
  rw [show P.length + g = (P ++ List.replicate g d.outside).length from by simp]
  rw [listSet_boundary]
  simp

theorem Bioes.writeMention_multi_shape (d : Dialect) (hd : d.Sane) (P : List Str)
    (g n r : Nat) (c : Char) (cs : Str) :
    Bioes.writeMention d (P ++ List.replicate (g + 2 + n + r) d.outside)
        ⟨⟨P.length + g, P.length + g + 2 + n⟩, c :: cs⟩ =
      .ok (P ++ (List.replicate g d.outside ++
        (d.begin ++ d.label_delim :: c :: cs) ::
          (List.replicate n (d.inside ++ d.label_delim :: c :: cs) ++
            (d.ends ++ d.label_delim :: c :: cs) :: List.replicate r d.outside))) := by
  unfold Bioes.writeMention
  dsimp only
  rw [if_neg (by omega)]
  rw [join_label_some c cs hd.bo, except_bind_ok]
  rw [show List.replicate (g + 2 + n + r) d.outside =
    List.replicate g d.outside ++ d.outside :: List.replicate (n + 1 + r) d.outside from by
      rw [← List.replicate_succ, ← List.replicate_add]; congr 1; omega]
  rw [show P ++ (List.replicate g d.outside ++
      d.outside :: List.replicate (n + 1 + r) d.outside) =
    (P ++ List.replicate g d.outside) ++
      d.outside :: List.replicate (n + 1 + r) d.outside from by simp]
  have hlen1 : P.length + g = (P ++ List.replicate g d.outside).length := by simp
  rw [hlen1, listSet_boundary]
  simp only [except_bind_ok]
  rw [show (P ++ List.replicate g d.outside).length + 2 + n -
      ((P ++ List.replicate g d.outside).length + 1) = n + 1 from by omega]
  rw [show (P ++ List.replicate g d.outside) ++
      (d.begin ++ d.label_delim :: c :: cs) :: List.replicate (n + 1 + r) d.outside =
    ((P ++ List.replicate g d.outside) ++ [d.begin ++ d.label_delim :: c :: cs]) ++
      List.replicate (n + 1 + r) d.outside from by simp]
  rw [show (P ++ List.replicate g d.outside).length + 1 =
    ((P ++ List.replicate g d.outside) ++ [d.begin ++ d.label_delim :: c :: cs]).length
    from by
      simp only [List.length_append, List.length_replicate, List.length_cons, List.length_nil]]
  rw [bioes_fill d hd ((P ++ List.replicate g d.outside).length + 2 + n) c cs n
    ((P ++ List.replicate g d.outside) ++ [d.begin ++ d.label_delim :: c :: cs]) r
    (by simp; omega)]
  simp

theorem bioes_encode_shape (d : Dialect) (hd : d.Sane) :
    ∀ (ms : List Mention) (P : List Str) (k : Nat),
      mentionsOK P.length (P.length + k) ms = true →
      List.foldlM (Bioes.writeMention d) (P ++ List.replicate k d.outside) ms =
        .ok (P ++ bioesShape d (P.length + k) P.length ms) := by
  intro ms
  induction ms with
  | nil =>
    intro P k h
    rw [foldlM_nil_except]
    simp [bioesShape]
  | cons m ms ih =>
    intro P k h
    simp only [mentionsOK, Bool.and_eq_true, decide_eq_true_eq] at h
    obtain ⟨⟨⟨⟨h1, h2⟩, h3⟩, h4⟩, h5⟩ := h
    obtain ⟨c, cs, hct⟩ := List.exists_cons_of_ne_nil h4
    obtain ⟨g, hg⟩ : ∃ g, m.span.start = P.length + g := ⟨m.span.start - P.length, by omega⟩
    obtain ⟨a, ha⟩ : ∃ a, m.span.stop = P.length + g + 1 + a :=
      ⟨m.span.stop - (P.length + g + 1), by omega⟩
    rcases m with ⟨⟨mstart, mstop⟩, mt⟩
    dsimp only at hg ha hct h1 h2 h3 h5
    cases a with
    | zero =>
      obtain ⟨r, hr⟩ : ∃ r, k = g + 1 + r := ⟨k - (g + 1), by omega⟩
      subst hg hct hr
      rw [show mstop = P.length + g + 1 from by omega] at h5 ⊢
      rw [foldlM_cons_except, Bioes.writeMention_single_shape d hd P g r c cs, except_bind_ok]
      rw [show P ++ (List.replicate g d.outside ++
          (d.single ++ d.label_delim :: c :: cs) :: List.replicate r d.outside) =
        (P ++ List.replicate g d.outside ++ [d.single ++ d.label_delim :: c :: cs]) ++
          List.replicate r d.outside from by simp]
      have hlenP : (P ++ List.replicate g d.outside ++
          [d.single ++ d.label_delim :: c :: cs]).length = P.length + g + 1 := by
        simp only [List.length_append, List.length_replicate, List.length_cons,
          List.length_nil]
      rw [ih _ r (by rw [hlenP]; rw [show P.length + g + 1 + r = P.length + (g + 1 + r)
        from by omega]; exact h5)]
      rw [hlenP]
      rw [show P.length + g + 1 + r = P.length + (g + 1 + r) from by omega]
      simp only [bioesShape]
      rw [show P.length + g - P.length = g from by omega]
      rw [if_pos (by omega)]
      simp
    | succ n =>
      obtain ⟨r, hr⟩ : ∃ r, k = g + 2 + n + r := ⟨k - (g + 2 + n), by omega⟩
      subst hg hct hr
      rw [show mstop = P.length + g + 2 + n from by omega] at h5 ⊢
      rw [foldlM_cons_except, Bioes.writeMention_multi_shape d hd P g n r c cs, except_bind_ok]
      rw [show P ++ (List.replicate g d.outside ++
          (d.begin ++ d.label_delim :: c :: cs) ::
            (List.replicate n (d.inside ++ d.label_delim :: c :: cs) ++
              (d.ends ++ d.label_delim :: c :: cs) :: List.replicate r d.outside)) =
        (P ++ List.replicate g d.outside ++
          (d.begin ++ d.label_delim :: c :: cs) ::
            (List.replicate n (d.inside ++ d.label_delim :: c :: cs) ++
              [d.ends ++ d.label_delim :: c :: cs])) ++
          List.replicate r d.outside from by simp]
      have hlenP : (P ++ List.replicate g d.outside ++
          (d.begin ++ d.label_delim :: c :: cs) ::
            (List.replicate n (d.inside ++ d.label_delim :: c :: cs) ++
              [d.ends ++ d.label_delim :: c :: cs])).length = P.length + g + 2 + n := by
        simp only [List.length_append, List.length_replicate, List.length_cons,
          List.length_nil]
        omega
      rw [ih _ r (by rw [hlenP]; rw [show P.length + g + 2 + n + r = P.length + (g + 2 + n + r)
        from by omega]; exact h5)]
      rw [hlenP]
      rw [show P.length + g + 2 + n + r = P.length + (g + 2 + n + r) from by omega]
      simp only [bioesShape]
      rw [show P.length + g - P.length = g from by omega]
      rw [if_neg (by omega)]
      rw [show P.length + g + 2 + n - (P.length + g) - 2 = n from by omega]
      simp

theorem bioesShape_length (d : Dialect) (len : Nat) :
    ∀ (ms : List Mention) (pos : Nat), mentionsOK pos len ms = true → pos ≤ len →
      (bioesShape d len pos ms).length = len - pos := by
  intro ms
  induction ms with
  | nil =>
    intro pos h hle
    simp [bioesShape]
  | cons m ms ih =>
    intro pos h hle
    simp only [mentionsOK, Bool.and_eq_true, decide_eq_true_eq] at h
    obtain ⟨⟨⟨⟨h1, h2⟩, h3⟩, h4⟩, h5⟩ := h
    simp only [bioesShape]
    by_cases hone : m.span.stop - m.span.start = 1
    · rw [if_pos hone]
      simp only [List.length_append, List.length_cons, List.length_replicate]
      rw [ih m.span.stop h5 h3]
      omega
    · rw [if_neg hone]
      simp only [List.length_append, List.length_cons, List.length_replicate]
      rw [ih m.span.stop h5 h3]
      omega

theorem bioes_step_O_closed (d : Dialect) (hd : d.Sane) (idx : Nat) (acc : List Mention) :
    Bioes.step d idx ⟨none, none, acc⟩ d.outside = .ok ⟨none, none, acc⟩ := by
  simp [Bioes.step, split_label_outside hd.delim_outside, MentionBuilder.in_mention,
    hd.os, Ne.symm hd.bo, hd.oe, Ne.symm hd.io_ne]

theorem bioes_step_S_closed (d : Dialect) (hd : d.Sane) (idx : Nat) (acc : List Mention)
    (c : Char) (cs : Str) :
    Bioes.step d idx ⟨none, none, acc⟩ (d.single ++ d.label_delim :: c :: cs) =
      .ok ⟨none, none, acc ++ [⟨⟨idx, idx + 1⟩, c :: cs⟩]⟩ := by
  simp [Bioes.step, split_label_joined (c :: cs) hd.delim_single (Ne.symm hd.os),
    MentionBuilder.in_mention, MentionBuilder.start_mention, MentionBuilder.end_mention]

theorem bioes_step_B_closed (d : Dialect) (hd : d.Sane) (idx : Nat) (acc : List Mention)
    (c : Char) (cs : Str) :
    Bioes.step d idx ⟨none, none, acc⟩ (d.begin ++ d.label_delim :: c :: cs) =
      .ok ⟨some idx, some (c :: cs), acc⟩ := by
  simp [Bioes.step, split_label_joined (c :: cs) hd.delim_begin hd.bo,
    MentionBuilder.in_mention, MentionBuilder.start_mention, hd.bs]

theorem bioes_step_I_open (d : Dialect) (hd : d.Sane) (idx s : Nat) (t t' : Str)
    (acc : List Mention) :
    Bioes.step d idx ⟨some s, some t', acc⟩ (d.inside ++ d.label_delim :: t) =
      .ok ⟨some s, some t', acc⟩ := by
  rcases t with - | ⟨c, cs⟩
  · simp [Bioes.step, split_label_joined [] hd.delim_inside hd.io_ne,
      MentionBuilder.in_mention, hd.its, Ne.symm hd.bi, hd.ie]
  · simp [Bioes.step, split_label_joined (c :: cs) hd.delim_inside hd.io_ne,
      MentionBuilder.in_mention, hd.its, Ne.symm hd.bi, hd.ie]

theorem bioes_step_E_open (d : Dialect) (hd : d.Sane) (idx s : Nat) (t : Str)
    (acc : List Mention) (c : Char) (cs : Str) (hs : s ≤ idx) :
    Bioes.step d idx ⟨some s, some t, acc⟩ (d.ends ++ d.label_delim :: c :: cs) =
      .ok ⟨none, none, acc ++ [⟨⟨s, idx + 1⟩, t⟩]⟩ := by
  simp [Bioes.step, split_label_joined (c :: cs) hd.delim_ends hd.oe.symm ,
    MentionBuilder.in_mention, MentionBuilder.end_mention, hd.es, Ne.symm hd.be,
    (by omega : s < idx + 1)]

theorem bioes_decode_shape (d : Dialect) (hd : d.Sane) (len : Nat) :
    ∀ (ms : List Mention) (pos : Nat) (acc : List Mention),
      mentionsOK pos len ms = true → pos ≤ len →
      foldSteps (Bioes.step d) pos ⟨none, none, acc⟩ (bioesShape d len pos ms) =
        .ok ⟨none, none, acc ++ ms⟩ := by
  intro ms
  induction ms with
  | nil =>
    intro pos acc _ hle
    simp only [bioesShape]
    rw [foldSteps_runs (Bioes.step d) d.outside ⟨none, none, acc⟩
      (fun j => bioes_step_O_closed d hd j acc) (len - pos) pos]
    simp
  | cons m ms ih =>
    intro pos acc h hle
    simp only [mentionsOK, Bool.and_eq_true, decide_eq_true_eq] at h
    obtain ⟨⟨⟨⟨h1, h2⟩, h3⟩, h4⟩, h5⟩ := h
    obtain ⟨c, cs, hct⟩ := List.exists_cons_of_ne_nil h4
    rcases m with ⟨⟨mstart, mstop⟩, mt⟩
    dsimp only at hct h1 h2 h3 h5
    subst hct
    simp only [bioesShape]
    rw [foldSteps_append]
    rw [foldSteps_runs (Bioes.step d) d.outside ⟨none, none, acc⟩
      (fun j => bioes_step_O_closed d hd j acc) (mstart - pos) pos]
    simp only [except_bind_ok, List.length_replicate]
    rw [show pos + (mstart - pos) = mstart from by omega]
    by_cases hone : mstop - mstart = 1
    · rw [if_pos hone]
      simp only [foldSteps]
      rw [bioes_step_S_closed d hd mstart acc c cs, except_bind_ok]
      rw [show mstart + 1 = mstop from by omega]
      generalize hacc2 : acc ++ [(⟨⟨mstart, mstop⟩, c :: cs⟩ : Mention)] = acc2
      rw [ih mstop acc2 h5 h3]
      rw [← hacc2]
      simp
    · rw [if_neg hone]
      simp only [foldSteps]
      rw [bioes_step_B_closed d hd mstart acc c cs, except_bind_ok]
      rw [foldSteps_append]
      rw [foldSteps_runs (Bioes.step d) (d.inside ++ d.label_delim :: c :: cs)
        ⟨some mstart, some (c :: cs), acc⟩
        (fun j => bioes_step_I_open d hd j mstart (c :: cs) (c :: cs) acc)
        (mstop - mstart - 2) (mstart + 1)]
      simp only [except_bind_ok, List.length_replicate]
      simp only [foldSteps]
      rw [bioes_step_E_open d hd (mstart + 1 + (mstop - mstart - 2)) mstart (c :: cs) acc c cs
        (by omega), except_bind_ok]
      rw [show mstart + 1 + (mstop - mstart - 2) + 1 = mstop from by omega]
      generalize hacc2 : acc ++ [(⟨⟨mstart, mstop⟩, c :: cs⟩ : Mention)] = acc2
      rw [ih mstop acc2 h5 h3]
      rw [← hacc2]
      simp

theorem bioes_roundtrip (d : Dialect) (hd : d.Sane) (ms : List Mention) (len : Nat)
    (h : mentionsOK 0 len ms = true) :
    (Bioes.encode_mentions d ms len).bind (Bioes.decode_labels d) = .ok ms := by
  have h0 : mentionsOK ([] : List Str).length (([] : List Str).length + len) ms = true := by
    simpa using h
  have henc := bioes_encode_shape d hd ms [] len h0
  simp only [List.nil_append, List.length_nil, Nat.zero_add] at henc
  unfold Bioes.encode_mentions
  rw [henc]
  show Bioes.decode_labels d (bioesShape d len 0 ms) = .ok ms
  unfold Bioes.decode_labels
  rw [show MentionBuilder.init = (⟨none, none, []⟩ : MentionBuilder) from rfl]
  rw [bioes_decode_shape d hd len ms 0 [] h (Nat.zero_le len)]
  simp [MentionBuilder.in_mention]

/-! ## Merging adjacent same-type mentions (the IO-representable image) -/

/-- Merge a run of pairwise-adjacent same-type mentions starting at `m`. -/
def mergeGo (m : Mention) : List Mention → List Mention
  | [] => [m]
  | m' :: ms =>
    if m.span.stop = m'.span.start ∧ m.type = m'.type then
      mergeGo ⟨⟨m.span.start, m'.span.stop⟩, m.type⟩ ms
    else
      m :: mergeGo m' ms

/-- Merge every maximal run of adjacent same-type mentions into a single
mention. -/
def mergeAdjacent : List Mention → List Mention
  | [] => []
  | m :: ms => mergeGo m ms

theorem mergeGo_ok (lo len : Nat) :
    ∀ (ms : List Mention) (m : Mention) (lo' : Nat), lo ≤ lo' →
      mentionsOK lo' len (m :: ms) = true → mentionsOK lo' len (mergeGo m ms) = true := by
  intro ms
  induction ms with
  | nil =>
    intro m lo' _ h
    exact h
  | cons m' ms ih =>
    intro m lo' hlo h
    simp only [mentionsOK, Bool.and_eq_true, decide_eq_true_eq] at h
    obtain ⟨⟨⟨⟨h1, h2⟩, h3⟩, h4⟩, ⟨⟨⟨⟨g1, g2⟩, g3⟩, g4⟩, g5⟩⟩ := h
    simp only [mergeGo]
    by_cases hc : m.span.stop = m'.span.start ∧ m.type = m'.type
    · rw [if_pos hc]
      refine ih ⟨⟨m.span.start, m'.span.stop⟩, m.type⟩ lo' hlo ?_
      simp only [mentionsOK, Bool.and_eq_true, decide_eq_true_eq]
      exact ⟨⟨⟨⟨h1, by omega⟩, g3⟩, h4⟩, g5⟩
    · rw [if_neg hc]
      have hrest := ih m' m.span.stop (by omega) (by
        simp only [mentionsOK, Bool.and_eq_true, decide_eq_true_eq]
        exact ⟨⟨⟨⟨g1, g2⟩, g3⟩, g4⟩, g5⟩)
      simp only [mentionsOK, Bool.and_eq_true, decide_eq_true_eq]
      exact ⟨⟨⟨⟨h1, h2⟩, h3⟩, h4⟩, by simpa using hrest⟩

theorem mergeGo_head :
    ∀ (ms : List Mention) (m : Mention), ∃ h t, mergeGo m ms = h :: t ∧
      h.span.start = m.span.start ∧ h.type = m.type := by
  intro ms
  induction ms with
  | nil =>
    intro m
    exact ⟨m, [], rfl, rfl, rfl⟩
  | cons m' ms ih =>
    intro m
    simp only [mergeGo]
    by_cases hc : m.span.stop = m'.span.start ∧ m.type = m'.type
    · rw [if_pos hc]
      obtain ⟨h, t, heq, hstart, htype⟩ := ih ⟨⟨m.span.start, m'.span.stop⟩, m.type⟩
      exact ⟨h, t, heq, hstart, htype⟩
    · rw [if_neg hc]
      exact ⟨m, mergeGo m' ms, rfl, rfl, rfl⟩

theorem mergeGo_noAdj (lo len : Nat) :
    ∀ (ms : List Mention) (m : Mention) (lo' : Nat),
      mentionsOK lo' len (m :: ms) = true → noAdjMerge (mergeGo m ms) = true := by
  intro ms
  induction ms with
  | nil =>
    intro m lo' _
    rfl
  | cons m' ms ih =>
    intro m lo' h
    simp only [mentionsOK, Bool.and_eq_true, decide_eq_true_eq] at h
    obtain ⟨⟨⟨⟨h1, h2⟩, h3⟩, h4⟩, ⟨⟨⟨⟨g1, g2⟩, g3⟩, g4⟩, g5⟩⟩ := h
    simp only [mergeGo]
    by_cases hc : m.span.stop = m'.span.start ∧ m.type = m'.type
    · rw [if_pos hc]
      refine ih ⟨⟨m.span.start, m'.span.stop⟩, m.type⟩ lo' ?_
      simp only [mentionsOK, Bool.and_eq_true, decide_eq_true_eq]
      exact ⟨⟨⟨⟨h1, by omega⟩, g3⟩, h4⟩, g5⟩
    · rw [if_neg hc]
      obtain ⟨hm, t, heq, hstart, htype⟩ := mergeGo_head ms m'
      rw [heq]
      have hrest : noAdjMerge (mergeGo m' ms) = true :=
        ih m' m.span.stop (by
          simp only [mentionsOK, Bool.and_eq_true, decide_eq_true_eq]
          exact ⟨⟨⟨⟨g1, g2⟩, g3⟩, g4⟩, g5⟩)
      rw [heq] at hrest
      simp only [noAdjMerge]
      rw [if_neg (by
        rintro ⟨hc1, hc2⟩
        exact hc ⟨by omega, by rw [hc2, htype]⟩)]
      exact hrest

theorem mergeAdjacent_ok (lo len : Nat) (ms : List Mention)
    (h : mentionsOK lo len ms = true) : mentionsOK lo len (mergeAdjacent ms) = true := by
  cases ms with
  | nil => rfl
  | cons m ms => exact mergeGo_ok lo len ms m lo (Nat.le_refl lo) h

theorem mergeAdjacent_noAdj (lo len : Nat) (ms : List Mention)
    (h : mentionsOK lo len ms = true) : noAdjMerge (mergeAdjacent ms) = true := by
  cases ms with
  | nil => rfl
  | cons m ms => exact mergeGo_noAdj lo len ms m lo h

/-- C1: for every sane dialect and every ordered, non-overlapping mention
list fitting in the given length, encoding then decoding is the identity
for the BIO, IOB and BIOES-family schemes; for IO the same round trip
holds after adjacent same-type mentions are first merged into one
mention. -/
theorem claim_C1_roundtrips (d : Dialect) (hd : d.Sane) (ms : List Mention) (len : Nat)
    (h : mentionsOK 0 len ms = true) :
    (Bio.encode_mentions d ms len).bind (Bio.decode_labels d) = .ok ms ∧
    (Iob.encode_mentions d ms len).bind (Iob.decode_labels d) = .ok ms ∧
    (Bioes.encode_mentions d ms len).bind (Bioes.decode_labels d) = .ok ms ∧
    (Io.encode_mentions d (mergeAdjacent ms) len).bind (Io.decode_labels d) =
      .ok (mergeAdjacent ms) :=
  ⟨bio_roundtrip d hd ms len h, iob_roundtrip d hd ms len h,
    bioes_roundtrip d hd ms len h,
    io_roundtrip d hd (mergeAdjacent ms) len (mergeAdjacent_ok 0 len ms h)
      (mergeAdjacent_noAdj 0 len ms h)⟩

theorem claim_C1_roundtrips_witness :
    (Dialect.Sane BIOESDialect ∧
      mentionsOK 0 8 [⟨⟨0, 1⟩, "PER".toList⟩, ⟨⟨2, 4⟩, "ORG".toList⟩,
        ⟨⟨4, 7⟩, "ORG".toList⟩, ⟨⟨7, 8⟩, "LOC".toList⟩] = true) ∧
    ((Bio.encode_mentions BIOESDialect [⟨⟨0, 1⟩, "PER".toList⟩, ⟨⟨2, 4⟩, "ORG".toList⟩,
        ⟨⟨4, 7⟩, "ORG".toList⟩, ⟨⟨7, 8⟩, "LOC".toList⟩] 8).bind
        (Bio.decode_labels BIOESDialect) =
      .ok [⟨⟨0, 1⟩, "PER".toList⟩, ⟨⟨2, 4⟩, "ORG".toList⟩,
        ⟨⟨4, 7⟩, "ORG".toList⟩, ⟨⟨7, 8⟩, "LOC".toList⟩] ∧
      (Iob.encode_mentions BIOESDialect [⟨⟨0, 1⟩, "PER".toList⟩, ⟨⟨2, 4⟩, "ORG".toList⟩,
        ⟨⟨4, 7⟩, "ORG".toList⟩, ⟨⟨7, 8⟩, "LOC".toList⟩] 8).bind
        (Iob.decode_labels BIOESDialect) =
      .ok [⟨⟨0, 1⟩, "PER".toList⟩, ⟨⟨2, 4⟩, "ORG".toList⟩,
        ⟨⟨4, 7⟩, "ORG".toList⟩, ⟨⟨7, 8⟩, "LOC".toList⟩] ∧
      (Bioes.encode_mentions BIOESDialect [⟨⟨0, 1⟩, "PER".toList⟩, ⟨⟨2, 4⟩, "ORG".toList⟩,
        ⟨⟨4, 7⟩, "ORG".toList⟩, ⟨⟨7, 8⟩, "LOC".toList⟩] 8).bind
        (Bioes.decode_labels BIOESDialect) =
      .ok [⟨⟨0, 1⟩, "PER".toList⟩, ⟨⟨2, 4⟩, "ORG".toList⟩,
        ⟨⟨4, 7⟩, "ORG".toList⟩, ⟨⟨7, 8⟩, "LOC".toList⟩] ∧
      (Io.encode_mentions BIOESDialect
          (mergeAdjacent [⟨⟨0, 1⟩, "PER".toList⟩, ⟨⟨2, 4⟩, "ORG".toList⟩,
            ⟨⟨4, 7⟩, "ORG".toList⟩, ⟨⟨7, 8⟩, "LOC".toList⟩]) 8).bind
        (Io.decode_labels BIOESDialect) =
      .ok (mergeAdjacent [⟨⟨0, 1⟩, "PER".toList⟩, ⟨⟨2, 4⟩, "ORG".toList⟩,
        ⟨⟨4, 7⟩, "ORG".toList⟩, ⟨⟨7, 8⟩, "LOC".toList⟩])) :=
  ⟨⟨by decide, by decide⟩,
    claim_C1_roundtrips BIOESDialect (by decide)
      [⟨⟨0, 1⟩, "PER".toList⟩, ⟨⟨2, 4⟩, "ORG".toList⟩,
        ⟨⟨4, 7⟩, "ORG".toList⟩, ⟨⟨7, 8⟩, "LOC".toList⟩] 8 (by decide)⟩

/-! ## Repair on already-valid input (C9) -/

/-- Every transition of the label sequence is valid, walking from the
given previous state/type (the implicit leading outside) and ending with
the transition into the implicit trailing outside. -/
def validChainB (d : Dialect) (same diff : List (Str × Str)) :
    Str → Option Str → List Str → Bool
  | ps, pe, [] =>
    match split_label d d.outside with
    | .ok (s, e) => is_valid_transition same diff ps pe s e
    | .error _ => false
  | ps, pe, label :: rest =>
    match split_label d label with
    | .ok (s, e) => is_valid_transition same diff ps pe s e && validChainB d same diff s e rest
    | .error _ => false

theorem bio_repairGo_id (d : Dialect) (method : String) :
    ∀ (labels : List Str) (ps : Str) (pe : Option Str),
      validChainB d (Bio.valid_same_type_transitions d)
        (Bio.valid_different_type_transitions d) ps pe labels = true →
      Bio.repairGo d method ps pe labels = .ok labels := by
  intro labels
  induction labels with
  | nil =>
    intro ps pe _
    rfl
  | cons l rest ih =>
    intro ps pe h
    rw [validChainB] at h
    rcases hsplit : split_label d l with e | ⟨s, et⟩ <;> rw [hsplit] at h
    · exact absurd h (by simp)
    · rw [Bool.and_eq_true] at h
      rw [Bio.repairGo, hsplit, except_bind_ok]
      dsimp only
      rw [if_pos h.1, ih s et h.2, except_bind_ok]

theorem iob_repairGo_id (d : Dialect) :
    ∀ (labels : List Str) (ps : Str) (pe : Option Str),
      validChainB d (Iob.valid_same_type_transitions d)
        (Iob.valid_different_type_transitions d) ps pe labels = true →
      Iob.repairGo d ps pe labels = .ok labels := by
  intro labels
  induction labels with
  | nil =>
    intro ps pe _
    rfl
  | cons l rest ih =>
    intro ps pe h
    rw [validChainB] at h
    rcases hsplit : split_label d l with e | ⟨s, et⟩ <;> rw [hsplit] at h
    · exact absurd h (by simp)
    · rw [Bool.and_eq_true] at h
      rw [Iob.repairGo, hsplit, except_bind_ok]
      dsimp only
      rw [if_pos h.1, ih s et h.2, except_bind_ok]

/-- C9: on a label sequence in which every transition — including the ones
from the implicit leading outside and to the implicit trailing outside —
is already valid for the scheme, repair returns its input unchanged (BIO
with both methods, IOB with conlleval). -/
theorem claim_C9_repair_identity (d : Dialect) (labels : List Str) (ps : Str)
    (pe : Option Str) (hout : split_label d d.outside = .ok (ps, pe)) :
    (validChainB d (Bio.valid_same_type_transitions d)
        (Bio.valid_different_type_transitions d) ps pe labels = true →
      Bio.repair_labels d labels REPAIR_CONLL = .ok labels ∧
      Bio.repair_labels d labels REPAIR_DISCARD = .ok labels) ∧
    (validChainB d (Iob.valid_same_type_transitions d)
        (Iob.valid_different_type_transitions d) ps pe labels = true →
      Iob.repair_labels d labels REPAIR_CONLL = .ok labels) := by
  constructor
  · intro h
    constructor
    · rw [Bio.repair_labels, if_neg (by decide), if_neg (by decide), hout, except_bind_ok]
      exact bio_repairGo_id d REPAIR_CONLL labels ps pe h
    · rw [Bio.repair_labels, if_neg (by decide), if_neg (by decide), hout, except_bind_ok]
      exact bio_repairGo_id d REPAIR_DISCARD labels ps pe h
  · intro h
    rw [Iob.repair_labels, if_neg (by decide), if_neg (by decide), hout, except_bind_ok]
    exact iob_repairGo_id d labels ps pe h

theorem claim_C9_repair_identity_witness :
    (Bio.repair_labels BIOESDialect (strs ["B-PER", "I-PER", "O"]) REPAIR_CONLL =
        .ok (strs ["B-PER", "I-PER", "O"]) ∧
      Bio.repair_labels BIOESDialect (strs ["B-PER", "I-PER", "O"]) REPAIR_DISCARD =
        .ok (strs ["B-PER", "I-PER", "O"])) ∧
    Iob.repair_labels BIOESDialect (strs ["I-PER", "B-PER", "O"]) REPAIR_CONLL =
      .ok (strs ["I-PER", "B-PER", "O"]) :=
  ⟨(claim_C9_repair_identity BIOESDialect (strs ["B-PER", "I-PER", "O"])
      BIOESDialect.outside none (by decide)).1 (by decide),
   (claim_C9_repair_identity BIOESDialect (strs ["I-PER", "B-PER", "O"])
      BIOESDialect.outside none (by decide)).2 (by decide)⟩

/-! ## Validation of repaired output (C2) -/

theorem split_label_invariant (d : Dialect) (l : Str) (s : Str) (e : Option Str)
    (h : split_label d l = .ok (s, e)) : e = none ↔ s = d.outside := by
  unfold split_label at h
  rcases hsplit : splitOnFirst d.label_delim l with - | ⟨s', t⟩ <;> rw [hsplit] at h
  · by_cases hl : l = d.outside
    · simp [hl] at h
      simp [← h.1, ← h.2, hl]
    · simp [hl] at h
  · by_cases hs : s' = d.outside
    · simp [hs] at h
    · simp [hs] at h
      simp [← h.1, ← h.2, hs]

theorem bio_trans_snd {ps s : Str} {pe e : Option Str}
    (h : is_valid_transition (Bio.valid_same_type_transitions BIOESDialect)
      (Bio.valid_different_type_transitions BIOESDialect) ps pe s e = true) :
    s = ['B'] ∨ s = ['I'] ∨ s = ['O'] := by
  unfold is_valid_transition at h
  split at h <;>
    (simp [Bio.valid_same_type_transitions, Bio.valid_different_type_transitions,
      BIOESDialect, Prod.ext_iff] at h
     tauto)

theorem iob_trans_snd {ps s : Str} {pe e : Option Str}
    (h : is_valid_transition (Iob.valid_same_type_transitions BIOESDialect)
      (Iob.valid_different_type_transitions BIOESDialect) ps pe s e = true) :
    s = ['B'] ∨ s = ['I'] ∨ s = ['O'] := by
  unfold is_valid_transition at h
  split at h <;>
    (simp [Iob.valid_same_type_transitions, Iob.valid_different_type_transitions,
      BIOESDialect, Prod.ext_iff] at h
     tauto)

/-- The validation result contains no invalid-transition error (and in
particular validation did not abort). -/
def noTransitionErrors : Except RunError SequenceValidationResult → Prop
  | .ok res => ∀ e ∈ res.errors, e.kind ≠ VErrorKind.invalidTransition
  | .error _ => False

theorem validateGo_nil_valid (enc : Encoding) (idx : Nat) (pl ps : Str) (pe : Option Str)
    (so : Str) (eo : Option Str)
    (hsplit : split_label enc.dialect enc.dialect.outside = .ok (so, eo))
    (hv : is_valid_transition enc.valid_same_type_transitions
      enc.valid_different_type_transitions ps pe so eo = true) :
    validateGo enc none none idx pl ps pe [] = .ok [] := by
  rw [validateGo, hsplit]
  simp [hv]

theorem validateGo_cons_ok (enc : Encoding) (idx : Nat) (pl ps : Str) (pe : Option Str)
    (l : Str) (rest : List Str) (s : Str) (e : Option Str)
    (hsplit : split_label enc.dialect l = .ok (s, e))
    (errs' : List ValidationError)
    (hrest : validateGo enc none none (idx + 1) l s e rest = .ok errs') :
    validateGo enc none none idx pl ps pe (l :: rest) =
      .ok ((if ¬ enc.is_valid_state s then
        [⟨VErrorKind.invalidState, invalidStateMsg s l none none, l, e, s, none, none⟩]
       else []) ++
        ((if ¬ is_valid_transition enc.valid_same_type_transitions
            enc.valid_different_type_transitions ps pe s e then
          [⟨VErrorKind.invalidTransition, invalidTransitionMsg pl l none none, l, e, s,
            none, none⟩]
         else []) ++ errs')) := by
  rw [validateGo, hsplit]
  simp only [except_bind_ok]
  rw [hrest]
  simp [ctxAt, truthyL]

theorem mem_ite_singleton {α : Type} {c : Prop} [Decidable c] {x er : α}
    (h : er ∈ (if c then [x] else [])) : er = x := by
  by_cases hc : c
  · rw [if_pos hc] at h
    simpa using h
  · rw [if_neg hc] at h
    simp at h

theorem bio_trans_to_outside (ps : Str) (pe : Option Str)
    (hset : ps = ['B'] ∨ ps = ['I'] ∨ ps = ['O']) (hiff : ps = ['O'] ↔ pe = none) :
    is_valid_transition (Bio.valid_same_type_transitions BIOESDialect)
      (Bio.valid_different_type_transitions BIOESDialect) ps pe
      BIOESDialect.outside none = true := by
  rcases hset with rfl | rfl | rfl
  · rcases pe with - | t
    · exact absurd (hiff.mpr rfl) (by decide)
    · simp [is_valid_transition, Bio.valid_different_type_transitions, BIOESDialect]
  · rcases pe with - | t
    · exact absurd (hiff.mpr rfl) (by decide)
    · simp [is_valid_transition, Bio.valid_different_type_transitions, BIOESDialect]
  · have hpe : pe = none := hiff.mp rfl
    subst hpe
    simp [is_valid_transition, Bio.valid_same_type_transitions, BIOESDialect]

theorem bio_trans_to_begin (ps : Str) (pe : Option Str) (tt : Str)
    (hset : ps = ['B'] ∨ ps = ['I'] ∨ ps = ['O']) (hiff : ps = ['O'] ↔ pe = none) :
    is_valid_transition (Bio.valid_same_type_transitions BIOESDialect)
      (Bio.valid_different_type_transitions BIOESDialect) ps pe
      BIOESDialect.begin (some tt) = true := by
  rcases hset with rfl | rfl | rfl
  · by_cases hpe : pe = some tt
    · subst hpe
      simp [is_valid_transition, Bio.valid_same_type_transitions, BIOESDialect]
    · simp [is_valid_transition, hpe, Bio.valid_different_type_transitions, BIOESDialect]
  · by_cases hpe : pe = some tt
    · subst hpe
      simp [is_valid_transition, Bio.valid_same_type_transitions, BIOESDialect]
    · simp [is_valid_transition, hpe, Bio.valid_different_type_transitions, BIOESDialect]
  · have hpe : pe = none := hiff.mp rfl
    subst hpe
    simp [is_valid_transition, Bio.valid_different_type_transitions, BIOESDialect]

theorem bio_repair_validateGo (method : String) :
    ∀ (labels : List Str) (ps : Str) (pe : Option Str) (out : List Str)
      (idx : Nat) (prev_label : Str),
      (ps = ['B'] ∨ ps = ['I'] ∨ ps = ['O']) → (ps = ['O'] ↔ pe = none) →
      Bio.repairGo BIOESDialect method ps pe labels = .ok out →
      ∃ errs, validateGo (Bio.encoding BIOESDialect) none none idx prev_label ps pe out =
        .ok errs ∧ ∀ er ∈ errs, er.kind ≠ VErrorKind.invalidTransition := by
  intro labels
  induction labels with
  | nil =>
    intro ps pe out idx prev_label hset hiff hrep
    rw [Bio.repairGo] at hrep
    injection hrep with hout
    subst hout
    exact ⟨[], validateGo_nil_valid _ idx prev_label ps pe BIOESDialect.outside none
      (by decide) (bio_trans_to_outside ps pe hset hiff), by simp⟩
  | cons l rest ih =>
    intro ps pe out idx prev_label hset hiff hrep
    rw [Bio.repairGo] at hrep
    rcases hsplit : split_label BIOESDialect l with er | ⟨s, e⟩ <;> rw [hsplit] at hrep
    · simp at hrep
    · simp only [except_bind_ok] at hrep
      have hinv := split_label_invariant BIOESDialect l s e hsplit
      by_cases hv : is_valid_transition (Bio.valid_same_type_transitions BIOESDialect)
          (Bio.valid_different_type_transitions BIOESDialect) ps pe s e = true
      · rw [if_pos hv] at hrep
        rcases hrec : Bio.repairGo BIOESDialect method s e rest with er | out' <;>
          rw [hrec] at hrep
        · simp at hrep
        · simp only [except_bind_ok] at hrep
          injection hrep with hout
          subst hout
          obtain ⟨errs', hval', hkind'⟩ := ih s e out' (idx + 1) l (bio_trans_snd hv)
            (by
              constructor
              · intro hs
                exact hinv.mpr (by rw [hs]; rfl)
              · intro he
                simpa using hinv.mp he) hrec
          refine ⟨_, validateGo_cons_ok (Bio.encoding BIOESDialect) idx prev_label ps pe
            l out' s e hsplit errs' hval', ?_⟩
          intro er her
          rcases List.mem_append.mp her with h1 | h2
          · have heq := mem_ite_singleton h1
            simp [heq]
          · rw [if_neg (fun hc => hc hv)] at h2
            rw [List.nil_append] at h2
            exact hkind' er h2
      · rw [if_neg hv] at hrep
        rcases e with - | t
        · simp at hrep
        · rcases t with - | ⟨c, cs⟩
          · simp at hrep
          · dsimp only at hrep
            by_cases hmc : method = REPAIR_CONLL
            · rw [if_pos hmc, join_label_some c cs (by decide), except_bind_ok] at hrep
              rcases hrec : Bio.repairGo BIOESDialect method BIOESDialect.begin
                  (some (c :: cs)) rest with er | out' <;> rw [hrec] at hrep
              · simp at hrep
              · simp only [except_bind_ok] at hrep
                injection hrep with hout
                subst hout
                obtain ⟨errs', hval', hkind'⟩ := ih BIOESDialect.begin (some (c :: cs)) out'
                  (idx + 1) (BIOESDialect.begin ++ BIOESDialect.label_delim :: c :: cs)
                  (by decide)
                  (by constructor <;> intro h <;> simp [BIOESDialect] at h) hrec
                refine ⟨_, validateGo_cons_ok (Bio.encoding BIOESDialect) idx prev_label ps pe
                  _ out' BIOESDialect.begin (some (c :: cs))
                  (split_label_joined (c :: cs) (by decide) (by decide)) errs' hval', ?_⟩
                intro er her
                rcases List.mem_append.mp her with h1 | h2
                · have heq := mem_ite_singleton h1
                  simp [heq]
                · rw [if_neg (fun hc => hc (bio_trans_to_begin ps pe (c :: cs) hset hiff))]
                    at h2
                  rw [List.nil_append] at h2
                  exact hkind' er h2
            · by_cases hmd : method = REPAIR_DISCARD
              · rw [if_neg hmc, if_pos hmd, join_label_none, except_bind_ok] at hrep
                rcases hrec : Bio.repairGo BIOESDialect method BIOESDialect.outside
                    none rest with er | out' <;> rw [hrec] at hrep
                · simp at hrep
                · simp only [except_bind_ok] at hrep
                  injection hrep with hout
                  subst hout
                  obtain ⟨errs', hval', hkind'⟩ := ih BIOESDialect.outside none out'
                    (idx + 1) BIOESDialect.outside (by decide) (by decide) hrec
                  refine ⟨_, validateGo_cons_ok (Bio.encoding BIOESDialect) idx prev_label
                    ps pe _ out' BIOESDialect.outside none
                    (split_label_outside (by decide)) errs' hval', ?_⟩
                  intro er her
                  rcases List.mem_append.mp her with h1 | h2
                  · have heq := mem_ite_singleton h1
                    simp [heq]
                  · rw [if_neg (fun hc => hc (bio_trans_to_outside ps pe hset hiff))] at h2
                    rw [List.nil_append] at h2
                    exact hkind' er h2
              · rw [if_neg hmc, if_neg hmd] at hrep
                simp at hrep

theorem iob_trans_to_outside (ps : Str) (pe : Option Str)
    (hset : ps = ['B'] ∨ ps = ['I'] ∨ ps = ['O']) (hiff : ps = ['O'] ↔ pe = none) :
    is_valid_transition (Iob.valid_same_type_transitions BIOESDialect)
      (Iob.valid_different_type_transitions BIOESDialect) ps pe
      BIOESDialect.outside none = true := by
  rcases hset with rfl | rfl | rfl
  · rcases pe with - | t
    · exact absurd (hiff.mpr rfl) (by decide)
    · simp [is_valid_transition, Iob.valid_different_type_transitions, BIOESDialect]
  · rcases pe with - | t
    · exact absurd (hiff.mpr rfl) (by decide)
    · simp [is_valid_transition, Iob.valid_different_type_transitions, BIOESDialect]
  · have hpe : pe = none := hiff.mp rfl
    subst hpe
    simp [is_valid_transition, Iob.valid_same_type_transitions, BIOESDialect]

theorem iob_trans_to_inside (ps : Str) (pe : Option Str) (tt : Str)
    (hset : ps = ['B'] ∨ ps = ['I'] ∨ ps = ['O']) (hiff : ps = ['O'] ↔ pe = none) :
    is_valid_transition (Iob.valid_same_type_transitions BIOESDialect)
      (Iob.valid_different_type_transitions BIOESDialect) ps pe
      BIOESDialect.inside (some tt) = true := by
  rcases hset with rfl | rfl | rfl
  · by_cases hpe : pe = some tt
    · subst hpe
      simp [is_valid_transition, Iob.valid_same_type_transitions, BIOESDialect]
    · simp [is_valid_transition, hpe, Iob.valid_different_type_transitions, BIOESDialect]
  · by_cases hpe : pe = some tt
    · subst hpe
      simp [is_valid_transition, Iob.valid_same_type_transitions, BIOESDialect]
    · simp [is_valid_transition, hpe, Iob.valid_different_type_transitions, BIOESDialect]
  · have hpe : pe = none := hiff.mp rfl
    subst hpe
    simp [is_valid_transition, Iob.valid_different_type_transitions, BIOESDialect]

theorem iob_repair_validateGo :
    ∀ (labels : List Str) (ps : Str) (pe : Option Str) (out : List Str)
      (idx : Nat) (prev_label : Str),
      (ps = ['B'] ∨ ps = ['I'] ∨ ps = ['O']) → (ps = ['O'] ↔ pe = none) →
      Iob.repairGo BIOESDialect ps pe labels = .ok out →
      ∃ errs, validateGo (Iob.encoding BIOESDialect) none none idx prev_label ps pe out =
        .ok errs ∧ ∀ er ∈ errs, er.kind ≠ VErrorKind.invalidTransition := by
  intro labels
  induction labels with
  | nil =>
    intro ps pe out idx prev_label hset hiff hrep
    rw [Iob.repairGo] at hrep
    injection hrep with hout
    subst hout
    exact ⟨[], validateGo_nil_valid _ idx prev_label ps pe BIOESDialect.outside none
      (by decide) (iob_trans_to_outside ps pe hset hiff), by simp⟩
  | cons l rest ih =>
    intro ps pe out idx prev_label hset hiff hrep
    rw [Iob.repairGo] at hrep
    rcases hsplit : split_label BIOESDialect l with er | ⟨s, e⟩ <;> rw [hsplit] at hrep
    · simp at hrep
    · simp only [except_bind_ok] at hrep
      have hinv := split_label_invariant BIOESDialect l s e hsplit
      by_cases hv : is_valid_transition (Iob.valid_same_type_transitions BIOESDialect)
          (Iob.valid_different_type_transitions BIOESDialect) ps pe s e = true
      · rw [if_pos hv] at hrep
        rcases hrec : Iob.repairGo BIOESDialect s e rest with er | out' <;>
          rw [hrec] at hrep
        · simp at hrep
        · simp only [except_bind_ok] at hrep
          injection hrep with hout
          subst hout
          obtain ⟨errs', hval', hkind'⟩ := ih s e out' (idx + 1) l (iob_trans_snd hv)
            (by
              constructor
              · intro hs
                exact hinv.mpr (by rw [hs]; rfl)
              · intro he
                simpa using hinv.mp he) hrec
          refine ⟨_, validateGo_cons_ok (Iob.encoding BIOESDialect) idx prev_label ps pe
            l out' s e hsplit errs' hval', ?_⟩
          intro er her
          rcases List.mem_append.mp her with h1 | h2
          · have heq := mem_ite_singleton h1
            simp [heq]
          · rw [if_neg (fun hc => hc hv)] at h2
            rw [List.nil_append] at h2
            exact hkind' er h2
      · rw [if_neg hv] at hrep
        by_cases hsb : s = BIOESDialect.begin
        · rw [if_pos hsb] at hrep
          rcases e with - | t
          · simp at hrep
          · rcases t with - | ⟨c, cs⟩
            · simp at hrep
            · dsimp only at hrep
              rw [join_label_some c cs (by decide), except_bind_ok] at hrep
              rcases hrec : Iob.repairGo BIOESDialect BIOESDialect.inside
                  (some (c :: cs)) rest with er | out' <;> rw [hrec] at hrep
              · simp at hrep
              · simp only [except_bind_ok] at hrep
                injection hrep with hout
                subst hout
                obtain ⟨errs', hval', hkind'⟩ := ih BIOESDialect.inside (some (c :: cs)) out'
                  (idx + 1) (BIOESDialect.inside ++ BIOESDialect.label_delim :: c :: cs)
                  (by decide)
                  (by constructor <;> intro h <;> simp [BIOESDialect] at h) hrec
                refine ⟨_, validateGo_cons_ok (Iob.encoding BIOESDialect) idx prev_label ps pe
                  _ out' BIOESDialect.inside (some (c :: cs))
                  (split_label_joined (c :: cs) (by decide) (by decide)) errs' hval', ?_⟩
                intro er her
                rcases List.mem_append.mp her with h1 | h2
                · have heq := mem_ite_singleton h1
                  simp [heq]
                · rw [if_neg (fun hc => hc (iob_trans_to_inside ps pe (c :: cs) hset hiff))]
                    at h2
                  rw [List.nil_append] at h2
                  exact hkind' er h2
        · rw [if_neg hsb] at hrep
          simp at hrep

theorem validate_labels_none_ok (enc : Encoding) (r : List Str)
    (errs : List ValidationError) (so : Str) (eo : Option Str)
    (hout : split_label enc.dialect enc.dialect.outside = .ok (so, eo))
    (hval : validateGo enc none none 0 enc.dialect.outside so eo r = .ok errs)
    (hkind : ∀ e ∈ errs, e.kind ≠ VErrorKind.invalidTransition) :
    noTransitionErrors (validate_labels r enc none none none) := by
  rw [validate_labels, if_neg (by simp [truthyL]), if_neg (by simp [truthyL]), hout,
    except_bind_ok]
  dsimp only
  rw [hval, except_bind_ok]
  rw [if_neg (by simp [truthyS])]
  exact hkind

/-- C2: for every label sequence and every repair method the scheme supports
(BIO with conlleval or discard, IOB with conlleval), validating the output of
repair_labels yields no invalid-transition errors — each repair decision is
checked against the already-repaired previous label, so the repaired sequence
is transition-valid, including at both implicit outside boundaries. -/
theorem claim_C2_repair_transition_valid (labels : List Str) :
    (∀ method r, (method = REPAIR_CONLL ∨ method = REPAIR_DISCARD) →
      Bio.repair_labels BIOESDialect labels method = .ok r →
      noTransitionErrors (validate_labels r (Bio.encoding BIOESDialect) none none none)) ∧
    (∀ r, Iob.repair_labels BIOESDialect labels REPAIR_CONLL = .ok r →
      noTransitionErrors (validate_labels r (Iob.encoding BIOESDialect) none none none)) := by
  constructor
  · intro method r hm hrep
    have hnm : ¬ method = REPAIR_NONE := by rcases hm with rfl | rfl <;> decide
    have hsup : ¬ ¬ method ∈ SUPPORTED_REPAIR_METHODS := by
      rcases hm with rfl | rfl <;> decide
    rw [Bio.repair_labels, if_neg hnm, if_neg hsup,
      show split_label BIOESDialect BIOESDialect.outside =
        .ok (BIOESDialect.outside, none) from by decide, except_bind_ok] at hrep
    dsimp only at hrep
    obtain ⟨errs, hval, hkind⟩ := bio_repair_validateGo method labels BIOESDialect.outside
      none r 0 BIOESDialect.outside (Or.inr (Or.inr (by decide))) (by decide) hrep
    exact validate_labels_none_ok (Bio.encoding BIOESDialect) r errs BIOESDialect.outside
      none (by decide) hval hkind
  · intro r hrep
    rw [Iob.repair_labels, if_neg (by decide), if_neg (by decide),
      show split_label BIOESDialect BIOESDialect.outside =
        .ok (BIOESDialect.outside, none) from by decide, except_bind_ok] at hrep
    dsimp only at hrep
    obtain ⟨errs, hval, hkind⟩ := iob_repair_validateGo labels BIOESDialect.outside
      none r 0 BIOESDialect.outside (Or.inr (Or.inr (by decide))) (by decide) hrep
    exact validate_labels_none_ok (Iob.encoding BIOESDialect) r errs BIOESDialect.outside
      none (by decide) hval hkind

theorem claim_C2_repair_transition_valid_witness :
    ((REPAIR_CONLL = REPAIR_CONLL ∨ REPAIR_CONLL = REPAIR_DISCARD) ∧
      Bio.repair_labels BIOESDialect (strs ["I-PER"]) REPAIR_CONLL =
        .ok (strs ["B-PER"])) ∧
    noTransitionErrors
      (validate_labels (strs ["B-PER"]) (Bio.encoding BIOESDialect) none none none) :=
  ⟨⟨Or.inl rfl, by decide⟩,
   (claim_C2_repair_transition_valid (strs ["I-PER"])).1 REPAIR_CONLL (strs ["B-PER"])
     (Or.inl rfl) (by decide)⟩

/-! ## Validation vs decoding (C3) -/

/-- A label that parses into a valid BIO state and whose entity type, when
present, is nonempty (the restriction of the amended C3). -/
def bioLabelOK (d : Dialect) (l : Str) : Bool :=
  match split_label d l with
  | .ok (s, e) =>
    decide (s ∈ Bio.valid_states d) &&
      (match e with
       | none => true
       | some t => decide (t ≠ []))
  | .error _ => false

theorem bioLabelOK_split {l : Str} (h : bioLabelOK BIOESDialect l = true) :
    ∃ s e, split_label BIOESDialect l = .ok (s, e) ∧
      (s = ['B'] ∨ s = ['I'] ∨ s = ['O']) ∧ ∀ t, e = some t → t ≠ [] := by
  unfold bioLabelOK at h
  rcases hsplit : split_label BIOESDialect l with er | ⟨s, e⟩ <;> rw [hsplit] at h <;>
    dsimp only at h
  · simp at h
  · rw [Bool.and_eq_true] at h
    refine ⟨s, e, rfl, ?_, ?_⟩
    · have h1 := of_decide_eq_true h.1
      simpa [Bio.valid_states, BIOESDialect] using h1
    · intro t ht
      have h2 := h.2
      rw [ht] at h2
      dsimp only at h2
      exact of_decide_eq_true h2

theorem bio_vstep_B_closed (idx : Nat) (acc : List Mention) (l : Str) (c : Char) (cs : Str)
    (hsplit : split_label BIOESDialect l = .ok (['B'], some (c :: cs))) :
    Bio.step BIOESDialect idx ⟨none, none, acc⟩ l = .ok ⟨some idx, some (c :: cs), acc⟩ := by
  simp [Bio.step, hsplit, MentionBuilder.in_mention, MentionBuilder.start_mention,
    show BIOESDialect.inside = ['I'] from rfl, show BIOESDialect.begin = ['B'] from rfl,
    show (['B'] : Str) ≠ ['I'] from by decide]

theorem bio_vstep_B_open (idx s0 : Nat) (t : Str) (acc : List Mention) (l : Str)
    (c : Char) (cs : Str) (hs : s0 < idx)
    (hsplit : split_label BIOESDialect l = .ok (['B'], some (c :: cs))) :
    Bio.step BIOESDialect idx ⟨some s0, some t, acc⟩ l =
      .ok ⟨some idx, some (c :: cs), acc ++ [⟨⟨s0, idx⟩, t⟩]⟩ := by
  simp [Bio.step, hsplit, MentionBuilder.in_mention, MentionBuilder.end_mention,
    MentionBuilder.start_mention, hs,
    show BIOESDialect.inside = ['I'] from rfl, show BIOESDialect.begin = ['B'] from rfl,
    show (['B'] : Str) ≠ ['I'] from by decide]
  rw [if_neg (show ¬ idx = 0 from by omega)]
  simp

theorem bio_vstep_O_closed (idx : Nat) (acc : List Mention) (l : Str)
    (hsplit : split_label BIOESDialect l = .ok (['O'], none)) :
    Bio.step BIOESDialect idx ⟨none, none, acc⟩ l = .ok ⟨none, none, acc⟩ := by
  simp [Bio.step, hsplit, MentionBuilder.in_mention,
    show BIOESDialect.inside = ['I'] from rfl, show BIOESDialect.begin = ['B'] from rfl,
    show BIOESDialect.outside = ['O'] from rfl,
    show (['O'] : Str) ≠ ['I'] from by decide, show (['O'] : Str) ≠ ['B'] from by decide]

theorem bio_vstep_O_open (idx s0 : Nat) (t : Str) (acc : List Mention) (l : Str)
    (hs : s0 < idx)
    (hsplit : split_label BIOESDialect l = .ok (['O'], none)) :
    Bio.step BIOESDialect idx ⟨some s0, some t, acc⟩ l =
      .ok ⟨none, none, acc ++ [⟨⟨s0, idx⟩, t⟩]⟩ := by
  simp [Bio.step, hsplit, MentionBuilder.in_mention, MentionBuilder.end_mention, hs,
    show BIOESDialect.inside = ['I'] from rfl, show BIOESDialect.begin = ['B'] from rfl,
    show BIOESDialect.outside = ['O'] from rfl,
    show (['O'] : Str) ≠ ['I'] from by decide, show (['O'] : Str) ≠ ['B'] from by decide]
  rw [if_neg (show ¬ idx = 0 from by omega)]
  simp

theorem bio_vstep_I_same (idx s0 : Nat) (t : Str) (acc : List Mention) (l : Str)
    (hsplit : split_label BIOESDialect l = .ok (['I'], some t)) :
    Bio.step BIOESDialect idx ⟨some s0, some t, acc⟩ l = .ok ⟨some s0, some t, acc⟩ := by
  simp [Bio.step, hsplit, MentionBuilder.in_mention,
    show BIOESDialect.inside = ['I'] from rfl, show BIOESDialect.begin = ['B'] from rfl,
    show (['I'] : Str) ≠ ['B'] from by decide]

theorem bio_vstep_I_mismatch (idx : Nat) (bsi : Option Nat) (bet : Option Str)
    (acc : List Mention) (l : Str) (t : Str) (hne : bet ≠ some t)
    (hsplit : split_label BIOESDialect l = .ok (['I'], some t)) :
    Bio.step BIOESDialect idx ⟨bsi, bet, acc⟩ l =
      .error (.encodingError
        (if truthy bet then "Illegal use of label to continue mention"
         else "Illegal use of label to begin a mention")) := by
  simp [Bio.step, hsplit, MentionBuilder.in_mention, Ne.symm hne,
    show BIOESDialect.inside = ['I'] from rfl, show BIOESDialect.begin = ['B'] from rfl,
    show (['I'] : Str) ≠ ['B'] from by decide]

theorem bio_trans_to_inside (ps : Str) (e : Option Str)
    (hset : ps = ['B'] ∨ ps = ['I']) :
    is_valid_transition (Bio.valid_same_type_transitions BIOESDialect)
      (Bio.valid_different_type_transitions BIOESDialect) ps e ['I'] e = true := by
  rcases hset with rfl | rfl <;>
    simp [is_valid_transition, Bio.valid_same_type_transitions, BIOESDialect]

theorem bio_trans_to_inside_invalid (ps : Str) (pe : Option Str) (t : Str)
    (hset : ps = ['B'] ∨ ps = ['I'] ∨ ps = ['O']) (hiff : ps = ['O'] ↔ pe = none)
    (hbad : ¬ ((ps = ['B'] ∨ ps = ['I']) ∧ pe = some t)) :
    ¬ is_valid_transition (Bio.valid_same_type_transitions BIOESDialect)
      (Bio.valid_different_type_transitions BIOESDialect) ps pe ['I'] (some t) = true := by
  by_cases hpe : pe = some t
  · rcases hset with h | h | h
    · exact absurd ⟨Or.inl h, hpe⟩ hbad
    · exact absurd ⟨Or.inr h, hpe⟩ hbad
    · rw [hiff.mp h] at hpe
      exact absurd hpe (by simp)
  · simp only [is_valid_transition]
    rw [if_neg hpe]
    rcases hset with rfl | rfl | rfl <;> decide

theorem bio_validateGo_total :
    ∀ (labels : List Str), labels.all (bioLabelOK BIOESDialect) = true →
      ∀ (idx : Nat) (pl ps : Str) (pe : Option Str),
        ∃ errs,
          validateGo (Bio.encoding BIOESDialect) none none idx pl ps pe labels = .ok errs := by
  intro labels
  induction labels with
  | nil =>
    intro _ idx pl ps pe
    rw [validateGo, show split_label (Bio.encoding BIOESDialect).dialect
      (Bio.encoding BIOESDialect).dialect.outside = .ok (['O'], (none : Option Str))
      from by decide, except_bind_ok]
    dsimp only
    split
    · exact ⟨_, rfl⟩
    · exact ⟨_, rfl⟩
  | cons l rest ih =>
    intro hall idx pl ps pe
    rw [List.all_cons, Bool.and_eq_true] at hall
    obtain ⟨s, e, hsplit, -, -⟩ := bioLabelOK_split hall.1
    obtain ⟨errs', hval'⟩ := ih hall.2 (idx + 1) l s e
    exact ⟨_, validateGo_cons_ok _ idx pl ps pe l rest s e hsplit errs' hval'⟩

theorem bio_validate_decode_go :
    ∀ (labels : List Str) (ps : Str) (pe : Option Str) (bsi : Option Nat)
      (bet : Option Str) (acc : List Mention) (idx : Nat) (pl : Str),
      labels.all (bioLabelOK BIOESDialect) = true →
      ((ps = ['O'] ∧ pe = none ∧ bsi = none ∧ bet = none) ∨
       ((ps = ['B'] ∨ ps = ['I']) ∧
         ∃ t s0, pe = some t ∧ bsi = some s0 ∧ bet = some t ∧ s0 < idx)) →
      ∃ errs,
        validateGo (Bio.encoding BIOESDialect) none none idx pl ps pe labels = .ok errs ∧
        (errs = [] ↔
          isEncErr (foldSteps (Bio.step BIOESDialect) idx ⟨bsi, bet, acc⟩ labels >>=
            decodeFinish (idx + labels.length)) = false) := by
  intro labels
  induction labels with
  | nil =>
    intro ps pe bsi bet acc idx pl _ hsync
    have hset : ps = ['B'] ∨ ps = ['I'] ∨ ps = ['O'] := by
      rcases hsync with ⟨h1, -, -, -⟩ | ⟨h1, -⟩
      · exact Or.inr (Or.inr h1)
      · tauto
    have hiff : ps = ['O'] ↔ pe = none := by
      rcases hsync with ⟨h1, h2, -, -⟩ | ⟨h1, t, s0, h2, -, -, -⟩
      · exact ⟨fun _ => h2, fun _ => h1⟩
      · constructor
        · intro hps
          rcases h1 with h1 | h1 <;> rw [h1] at hps <;> exact absurd hps (by decide)
        · intro hpe
          rw [h2] at hpe
          exact absurd hpe (by simp)
    refine ⟨[], validateGo_nil_valid _ idx pl ps pe BIOESDialect.outside none (by decide)
      (bio_trans_to_outside ps pe hset hiff), ?_⟩
    rw [foldSteps]
    simp only [except_bind_ok, List.length_nil, Nat.add_zero]
    rcases hsync with ⟨-, -, hbsi, hbet⟩ | ⟨-, t, s0, -, hbsi, hbet, hlt⟩
    · subst hbsi hbet
      rw [decodeFinish_closed]
      simp [isEncErr]
    · subst hbsi hbet
      rw [decodeFinish_open idx s0 t acc hlt]
      simp [isEncErr]
  | cons l rest ih =>
    intro ps pe bsi bet acc idx pl hall hsync
    rw [List.all_cons, Bool.and_eq_true] at hall
    obtain ⟨s, e, hsplit, hstates, htne⟩ := bioLabelOK_split hall.1
    have hset : ps = ['B'] ∨ ps = ['I'] ∨ ps = ['O'] := by
      rcases hsync with ⟨h1, -, -, -⟩ | ⟨h1, -⟩
      · exact Or.inr (Or.inr h1)
      · tauto
    have hiff : ps = ['O'] ↔ pe = none := by
      rcases hsync with ⟨h1, h2, -, -⟩ | ⟨h1, t, s0, h2, -, -, -⟩
      · exact ⟨fun _ => h2, fun _ => h1⟩
      · constructor
        · intro hps
          rcases h1 with h1 | h1 <;> rw [h1] at hps <;> exact absurd hps (by decide)
        · intro hpe
          rw [h2] at hpe
          exact absurd hpe (by simp)
    have hinv := split_label_invariant BIOESDialect l s e hsplit
    rcases hstates with rfl | rfl | rfl
    · rcases e with - | t
      · exact absurd (hinv.mp rfl) (by decide)
      · have ht := htne t rfl
        rcases t with - | ⟨c, cs⟩
        · exact absurd rfl ht
        · have hv := bio_trans_to_begin ps pe (c :: cs) hset hiff
          rcases hsync with ⟨-, -, hbsi, hbet⟩ | ⟨-, t0, s0, -, hbsi, hbet, hlt⟩
          · subst hbsi hbet
            obtain ⟨errs', hval', hiffd⟩ := ih ['B'] (some (c :: cs)) (some idx)
              (some (c :: cs)) acc (idx + 1) l hall.2
              (Or.inr ⟨Or.inl rfl, c :: cs, idx, rfl, rfl, rfl, Nat.lt_succ_self idx⟩)
            refine ⟨_, validateGo_cons_ok _ idx pl ps pe l rest ['B'] (some (c :: cs))
              hsplit errs' hval', ?_⟩
            rw [if_neg (show ¬ ¬ (Bio.encoding BIOESDialect).is_valid_state ['B'] = true
                from by decide),
              if_neg (fun hc => hc hv)]
            simp only [List.nil_append]
            rw [foldSteps, bio_vstep_B_closed idx acc l c cs hsplit]
            simp only [except_bind_ok]
            rw [show idx + (l :: rest).length = idx + 1 + rest.length from by
              rw [List.length_cons]; omega]
            exact hiffd
          · subst hbsi hbet
            obtain ⟨errs', hval', hiffd⟩ := ih ['B'] (some (c :: cs)) (some idx)
              (some (c :: cs)) (acc ++ [⟨⟨s0, idx⟩, t0⟩]) (idx + 1) l hall.2
              (Or.inr ⟨Or.inl rfl, c :: cs, idx, rfl, rfl, rfl, Nat.lt_succ_self idx⟩)
            refine ⟨_, validateGo_cons_ok _ idx pl ps pe l rest ['B'] (some (c :: cs))
              hsplit errs' hval', ?_⟩
            rw [if_neg (show ¬ ¬ (Bio.encoding BIOESDialect).is_valid_state ['B'] = true
                from by decide),
              if_neg (fun hc => hc hv)]
            simp only [List.nil_append]
            rw [foldSteps, bio_vstep_B_open idx s0 t0 acc l c cs hlt hsplit]
            simp only [except_bind_ok]
            rw [show idx + (l :: rest).length = idx + 1 + rest.length from by
              rw [List.length_cons]; omega]
            exact hiffd
    · rcases e with - | t
      · by_cases hgood : (ps = ['B'] ∨ ps = ['I']) ∧ pe = (none : Option Str)
        · exact absurd (hinv.mp rfl) (by decide)
        · exact absurd (hinv.mp rfl) (by decide)
      · by_cases hgood : (ps = ['B'] ∨ ps = ['I']) ∧ pe = some t
        · obtain ⟨hg1, hg2⟩ := hgood
          subst hg2
          rcases hsync with ⟨hps, hpe, -, -⟩ | ⟨-, t0, s0, hpe, hbsi, hbet, hlt⟩
          · exact absurd hpe (by simp)
          · injection hpe with ht0
            subst ht0
            subst hbsi hbet
            have hv := bio_trans_to_inside ps (some t) hg1
            obtain ⟨errs', hval', hiffd⟩ := ih ['I'] (some t) (some s0) (some t) acc
              (idx + 1) l hall.2
              (Or.inr ⟨Or.inr rfl, t, s0, rfl, rfl, rfl, Nat.lt_succ_of_lt hlt⟩)
            refine ⟨_, validateGo_cons_ok _ idx pl ps (some t) l rest ['I'] (some t)
              hsplit errs' hval', ?_⟩
            rw [if_neg (show ¬ ¬ (Bio.encoding BIOESDialect).is_valid_state ['I'] = true
                from by decide),
              if_neg (fun hc => hc hv)]
            simp only [List.nil_append]
            rw [foldSteps, bio_vstep_I_same idx s0 t acc l hsplit]
            simp only [except_bind_ok]
            rw [show idx + (l :: rest).length = idx + 1 + rest.length from by
              rw [List.length_cons]; omega]
            exact hiffd
        · have hvnot := bio_trans_to_inside_invalid ps pe t hset hiff hgood
          obtain ⟨errs', hval'⟩ := bio_validateGo_total rest hall.2 (idx + 1) l ['I'] (some t)
          refine ⟨_, validateGo_cons_ok _ idx pl ps pe l rest ['I'] (some t)
            hsplit errs' hval', ?_⟩
          rw [if_neg (show ¬ ¬ (Bio.encoding BIOESDialect).is_valid_state ['I'] = true
              from by decide),
            if_pos (show ¬ is_valid_transition
                (Bio.encoding BIOESDialect).valid_same_type_transitions
                (Bio.encoding BIOESDialect).valid_different_type_transitions ps pe ['I']
                (some t) = true from hvnot)]
          have hne : bet ≠ some t := by
            rcases hsync with ⟨-, -, -, hbet⟩ | ⟨hps2, t0, s0, hpe, -, hbet, -⟩
            · rw [hbet]
              simp
            · rw [hbet]
              intro hc
              injection hc with hc
              rw [hc] at hpe
              exact hgood ⟨hps2, hpe⟩
          rw [foldSteps, bio_vstep_I_mismatch idx bsi bet acc l t hne hsplit]
          simp only [except_bind_error]
          simp [isEncErr]
    · have he : e = none := hinv.mpr rfl
      subst he
      have hv := bio_trans_to_outside ps pe hset hiff
      rcases hsync with ⟨-, -, hbsi, hbet⟩ | ⟨-, t0, s0, -, hbsi, hbet, hlt⟩
      · subst hbsi hbet
        obtain ⟨errs', hval', hiffd⟩ := ih ['O'] none none none acc (idx + 1) l hall.2
          (Or.inl ⟨rfl, rfl, rfl, rfl⟩)
        refine ⟨_, validateGo_cons_ok _ idx pl ps pe l rest ['O'] none hsplit errs' hval', ?_⟩
        rw [if_neg (show ¬ ¬ (Bio.encoding BIOESDialect).is_valid_state ['O'] = true
            from by decide),
          if_neg (fun hc => hc hv)]
        simp only [List.nil_append]
        rw [foldSteps, bio_vstep_O_closed idx acc l hsplit]
        simp only [except_bind_ok]
        rw [show idx + (l :: rest).length = idx + 1 + rest.length from by
          rw [List.length_cons]; omega]
        exact hiffd
      · subst hbsi hbet
        obtain ⟨errs', hval', hiffd⟩ := ih ['O'] none none none (acc ++ [⟨⟨s0, idx⟩, t0⟩])
          (idx + 1) l hall.2 (Or.inl ⟨rfl, rfl, rfl, rfl⟩)
        refine ⟨_, validateGo_cons_ok _ idx pl ps pe l rest ['O'] none hsplit errs' hval', ?_⟩
        rw [if_neg (show ¬ ¬ (Bio.encoding BIOESDialect).is_valid_state ['O'] = true
            from by decide),
          if_neg (fun hc => hc hv)]
        simp only [List.nil_append]
        rw [foldSteps, bio_vstep_O_open idx s0 t0 acc l hlt hsplit]
        simp only [except_bind_ok]
        rw [show idx + (l :: rest).length = idx + 1 + rest.length from by
          rw [List.length_cons]; omega]
        exact hiffd

/-- C3 as frozen is false: for the BIO scheme the label `"X-Y"` parses
(state `"X"`, type `"Y"`), `decode_labels` returns `ok []` with no
`EncodingError` — the source's `if`/`elif` chain silently skips the unknown
state — yet `validate_labels` reports three errors (one invalid-state and
two invalid-transition), so "zero validation errors iff decode raises no
EncodingError" fails. -/
theorem claim_C3_cex :
    isEncErr (Bio.decode_labels BIOESDialect (strs ["X-Y"])) = false ∧
    (validate_labels (strs ["X-Y"]) (Bio.encoding BIOESDialect) none none none).map
      (fun res => res.errors.length) = .ok 3 := by
  decide

/-- C3 (amended): for the BIO scheme, restricted to label sequences whose
labels all parse into a valid BIO state with a nonempty entity type when one
is present, `validate_labels` reports zero errors iff `decode_labels` on the
same sequence raises no `EncodingError`. -/
theorem claim_C3_validate_decode (labels : List Str)
    (h : labels.all (bioLabelOK BIOESDialect) = true) :
    ((validate_labels labels (Bio.encoding BIOESDialect) none none none).map
        (fun res => res.errors) = .ok [] ↔
      isEncErr (Bio.decode_labels BIOESDialect labels) = false) := by
  obtain ⟨errs, hval, hiffd⟩ := bio_validate_decode_go labels BIOESDialect.outside none
    none none [] 0 (Bio.encoding BIOESDialect).dialect.outside h
    (Or.inl ⟨rfl, rfl, rfl, rfl⟩)
  rw [validate_labels, if_neg (by simp [truthyL]), if_neg (by simp [truthyL]),
    show split_label (Bio.encoding BIOESDialect).dialect
        (Bio.encoding BIOESDialect).dialect.outside = .ok (BIOESDialect.outside, none)
      from by decide, except_bind_ok]
  dsimp only
  rw [hval, except_bind_ok]
  rw [if_neg (by simp [truthyS])]
  rw [Bio.decode_labels, show MentionBuilder.init = (⟨none, none, []⟩ : MentionBuilder)
    from rfl]
  rw [Nat.zero_add] at hiffd
  simp only [except_map_ok, Except.ok.injEq]
  exact hiffd

theorem claim_C3_validate_decode_witness :
    (strs ["B-PER", "I-PER", "O"]).all (bioLabelOK BIOESDialect) = true ∧
    ((validate_labels (strs ["B-PER", "I-PER", "O"]) (Bio.encoding BIOESDialect) none none
          none).map (fun res => res.errors) = .ok [] ↔
      isEncErr (Bio.decode_labels BIOESDialect (strs ["B-PER", "I-PER", "O"])) = false) :=
  ⟨by decide, claim_C3_validate_decode (strs ["B-PER", "I-PER", "O"]) (by decide)⟩

/-! ## The shape of the validation walk (C7) -/

/-- A label that `split_label` parses. -/
def parseOk (d : Dialect) (l : Str) : Bool :=
  match split_label d l with
  | .ok _ => true
  | .error _ => false

theorem parseOk_split {d : Dialect} {l : Str} (h : parseOk d l = true) :
    ∃ s e, split_label d l = .ok (s, e) := by
  unfold parseOk at h
  rcases hsplit : split_label d l with er | ⟨s, e⟩ <;> rw [hsplit] at h <;> dsimp only at h
  · simp at h
  · exact ⟨s, e, rfl⟩

/-- Per-position contribution of the walk §8 describes: the state check for
the label, then the transition check against the previous label, in that
order; both can fire for the same position.  (Spec-side description, to be
compared with the walk the source performs.) -/
def pairErrors (enc : Encoding) (pl l : Str) : List ValidationError :=
  match split_label enc.dialect pl, split_label enc.dialect l with
  | .ok (pstate, pentity), .ok (s, e) =>
    (if ¬ enc.is_valid_state s then
      [⟨VErrorKind.invalidState, invalidStateMsg s l none none, l, e, s, none, none⟩]
     else []) ++
    (if ¬ is_valid_transition enc.valid_same_type_transitions
        enc.valid_different_type_transitions pstate pentity s e then
      [⟨VErrorKind.invalidTransition, invalidTransitionMsg pl l none none, l, e, s,
        none, none⟩]
     else [])
  | _, _ => []

/-- End-of-walk contribution: the transition check from the last real label
back to the boundary outside. -/
def finalErrors (enc : Encoding) (ll : Str) : List ValidationError :=
  match split_label enc.dialect ll, split_label enc.dialect enc.dialect.outside with
  | .ok (ps, pe), .ok (s, e) =>
    if is_valid_transition enc.valid_same_type_transitions
        enc.valid_different_type_transitions ps pe s e then []
    else [⟨VErrorKind.invalidTransition,
      invalidFinalTransitionMsg ll enc.dialect.outside none none, ll, pe, ps, none, none⟩]
  | _, _ => []

/-- One pass over the labels, threading the previous label (initially the
boundary outside), collecting every position's contribution and closing with
the final transition check. -/
def walkErrors (enc : Encoding) (pl : Str) : List Str → List ValidationError
  | [] => finalErrors enc pl
  | l :: rest => pairErrors enc pl l ++ walkErrors enc l rest

theorem validateGo_walk (enc : Encoding) (so : Str) (eo : Option Str)
    (hout : split_label enc.dialect enc.dialect.outside = .ok (so, eo)) :
    ∀ (labels : List Str) (idx : Nat) (pl ps : Str) (pe : Option Str),
      labels.all (parseOk enc.dialect) = true →
      split_label enc.dialect pl = .ok (ps, pe) →
      validateGo enc none none idx pl ps pe labels = .ok (walkErrors enc pl labels) := by
  intro labels
  induction labels with
  | nil =>
    intro idx pl ps pe _ hpl
    rw [validateGo, hout, except_bind_ok]
    dsimp only
    rw [walkErrors, finalErrors, hpl, hout]
    dsimp only
    by_cases hv : is_valid_transition enc.valid_same_type_transitions
        enc.valid_different_type_transitions ps pe so eo = true
    · rw [if_pos hv, if_pos hv]
    · rw [if_neg hv, if_neg hv]
      simp [ctxLast, truthyL]
  | cons l rest ih =>
    intro idx pl ps pe hall hpl
    rw [List.all_cons, Bool.and_eq_true] at hall
    obtain ⟨s, e, hsplit⟩ := parseOk_split hall.1
    rw [validateGo_cons_ok enc idx pl ps pe l rest s e hsplit _
      (ih (idx + 1) l s e hall.2 hsplit)]
    rw [walkErrors, pairErrors, hpl, hsplit]
    dsimp only
    rw [List.append_assoc]

/-- C7: on a sequence whose labels all parse, `validate_labels` walks the
sequence exactly once with the previous label initialized to the boundary
outside, collects each position's state check followed by its transition
check without stopping at the first error, and closes with the final
transition check from the last real label back to outside (`walkErrors`);
moreover both an invalid-state and an invalid-transition error can be
emitted for the same position, as the label `"X-Y"` at line 5 shows. -/
theorem claim_C7_validation_walk (enc : Encoding) (labels : List Str) (so : Str)
    (eo : Option Str)
    (hout : split_label enc.dialect enc.dialect.outside = .ok (so, eo))
    (hall : labels.all (parseOk enc.dialect) = true) :
    ((validate_labels labels enc none none none).map (fun r => r.errors) =
      .ok (walkErrors enc enc.dialect.outside labels)) ∧
    ((validate_labels (strs ["X-Y"]) (Bio.encoding BIOESDialect) none none
        (some [5])).map (fun r => r.errors.map fun er => (er.kind, er.label, er.line_num)) =
      .ok [(VErrorKind.invalidState, "X-Y".toList, some 5),
           (VErrorKind.invalidTransition, "X-Y".toList, some 5),
           (VErrorKind.invalidTransition, "X-Y".toList, some 5)]) := by
  constructor
  · rw [validate_labels, if_neg (by simp [truthyL]), if_neg (by simp [truthyL]), hout,
      except_bind_ok]
    dsimp only
    rw [validateGo_walk enc so eo hout labels 0 enc.dialect.outside so eo hall hout,
      except_bind_ok]
    rw [if_neg (by simp [truthyS])]
    rfl
  · decide

theorem claim_C7_validation_walk_witness :
    (split_label (Bio.encoding BIOESDialect).dialect
        (Bio.encoding BIOESDialect).dialect.outside = .ok (['O'], none)) ∧
    ((strs ["I-PER"]).all (parseOk (Bio.encoding BIOESDialect).dialect) = true) ∧
    (((validate_labels (strs ["I-PER"]) (Bio.encoding BIOESDialect) none none none).map
        (fun r => r.errors) =
      .ok (walkErrors (Bio.encoding BIOESDialect)
        (Bio.encoding BIOESDialect).dialect.outside (strs ["I-PER"]))) ∧
     ((validate_labels (strs ["X-Y"]) (Bio.encoding BIOESDialect) none none
        (some [5])).map (fun r => r.errors.map fun er => (er.kind, er.label, er.line_num)) =
      .ok [(VErrorKind.invalidState, "X-Y".toList, some 5),
           (VErrorKind.invalidTransition, "X-Y".toList, some 5),
           (VErrorKind.invalidTransition, "X-Y".toList, some 5)])) :=
  ⟨by decide, by decide,
   claim_C7_validation_walk (Bio.encoding BIOESDialect) (strs ["I-PER"]) ['O'] none
     (by decide) (by decide)⟩
